import Mathlib

/-!
# Verification of the Django Test Manager core

A shallow embedding, in Lean 4, of the test-discovery and execution-state
engine of the `django-test-manager` VS Code extension, together with proofs
and refutations of the frozen specification claims.

Embedding conventions:
* JavaScript strings handled character-by-character are modelled as
  `List Char`; configuration-level strings are Lean `String`s.
* The `TestNode` tree (`testDiscovery.ts`) is a mutual inductive
  `TestNode`/`Forest` so that all recursions over it are structural and
  evaluate inside the kernel.
* The Status Store (`TestStateManager`) is not part of the provided sources
  (only its callers are); it is modelled from the spec as an
  insertion-ordered association list with upsert mutators (see `Store`).
* JS regular expressions used by the runner/discovery are embedded as
  deterministic scanning functions; each one is annotated with the regex it
  implements, and the determinism of the backtracking search is argued in
  the comment.
* Wall-clock reads (`Date.now()`) are modelled by an explicit `now : Nat`
  parameter supplied to each processing pass; reported durations captured
  from the output keep their raw digit text (the source multiplies a parsed
  float, which is outside the embedding and irrelevant to every claim).
* UI side effects (refresh events, output channels, history recording) are
  omitted: they do not touch the Status Store.
-/

set_option maxRecDepth 40000

namespace DjangoTest

/-- Execution status of a test entity, as in `TestStateManager` /
`testRunner.ts` (the string union
`pending | running | passed | failed | skipped | aborted | unknown`). -/
inductive Status where
  | pending
  | running
  | passed
  | failed
  | skipped
  | aborted
  | unknown
deriving DecidableEq, Repr

/-- Node kinds of the discovery tree (`TestNode.type` in
`testDiscovery.ts`): `app | folder | file | class | method`. -/
inductive NodeType where
  | app
  | folder
  | file
  | cls
  | method
deriving DecidableEq, Repr

mutual
/-- `TestNode` from `testDiscovery.ts`: `name`, `type`, optional
`dottedPath`, and `children`.  `uri`/`range`/`parent` are navigation
metadata not used by any claim and are omitted; `children` is a `Forest`
(mutual inductive) so recursion stays structural.  A JS `dottedPath` that
is `undefined` is `none`; the empty string `some ""` is distinct because
the source tests truthiness (`if (node.dottedPath)`), which `dpTruthy`
captures. -/
inductive TestNode where
  | mk (name : String) (ntype : NodeType) (dottedPath : Option String)
      (children : Forest)

/-- A list of `TestNode`s (the `children` array / the root node list). -/
inductive Forest where
  | nil
  | cons (n : TestNode) (rest : Forest)
end

namespace TestNode

def name : TestNode → String
  | .mk n _ _ _ => n

def ntype : TestNode → NodeType
  | .mk _ t _ _ => t

def dottedPath : TestNode → Option String
  | .mk _ _ d _ => d

def children : TestNode → Forest
  | .mk _ _ _ c => c

end TestNode

/-- JS truthiness of an optional string: `undefined` and `""` are falsy.
Used wherever the source writes `if (node.dottedPath)`. -/
def dpTruthy : Option String → Bool
  | none => false
  | some s => s ≠ ""

mutual
/-- The dotted paths of a subtree that the source's recursive walks touch:
the node's own `dottedPath` when truthy, then those of all descendants
(pre-order).  Matches the guard structure of `setPendingRecursive` and
`finalizeNodeStatus`. -/
def subtreePaths : TestNode → List String
  | .mk _ _ d c =>
    (match d with
     | some s => if s = "" then [] else [s]
     | none => []) ++ forestPaths c

def forestPaths : Forest → List String
  | .nil => []
  | .cons n rest => subtreePaths n ++ forestPaths rest
end

mutual
/-- All nodes of a subtree: the node itself, then recursively the
children's nodes (pre-order). -/
def nodesOf : TestNode → List TestNode
  | .mk n t d c => .mk n t d c :: forestNodes c

def forestNodes : Forest → List TestNode
  | .nil => []
  | .cons n rest => nodesOf n ++ forestNodes rest
end

/-! ## The Status Store

Modelled from the spec: `TestStateManager` is referenced by every runner
and discovery file but its own source is not among the provided files.
Spec §4.2 defines it as a process-wide `dottedPath → entry` map whose
mutators (`setStatus`, `setDuration`, `setFailureMessage`, `setDiff`) are
upserts creating the entry if absent, and whose readers (`getStatus`,
`getDuration`, `getDiff`, `getAllKeys`) are pure.  We model it as an
insertion-ordered association list of entries (a faithful rendering of a
JS `Map`), with one record per dotted path. -/

/-- A measured or reported duration.  A duration reported by the runner
keeps the raw captured digit text (the source runs `parseFloat` and scales
by 1000, which no claim inspects); a fallback duration is
`now - startTime` in milliseconds. -/
inductive DurVal where
  | reported (digits : List Char)
  | computed (ms : Nat)
deriving DecidableEq, Repr

/-- One Status Store entry: status, optional duration, optional failure
message, optional (expected, actual) diff pair.  `status` is optional so
that `setDiff` etc. can create an entry without inventing a status. -/
structure Entry where
  status : Option Status := none
  duration : Option DurVal := none
  failureMessage : Option String := none
  diff : Option (String × String) := none
deriving DecidableEq, Repr

/-- Modelled from the spec: the Status Store state — an insertion-ordered
association list from dotted path to `Entry`. -/
structure Store where
  entries : List (String × Entry)
deriving DecidableEq, Repr

def Store.empty : Store := ⟨[]⟩

/-- Upsert: apply `f` to the entry at `k`, creating a default entry first
when `k` is absent (spec: "each an upsert; creates the entry if absent"). -/
def updateEntry (es : List (String × Entry)) (k : String) (f : Entry → Entry) :
    List (String × Entry) :=
  match es with
  | [] => [(k, f {})]
  | (k', e) :: rest =>
    if k' = k then (k', f e) :: rest else (k', e) :: updateEntry rest k f

def lookupEntry (es : List (String × Entry)) (k : String) : Option Entry :=
  match es with
  | [] => none
  | (k', e) :: rest => if k' = k then some e else lookupEntry rest k

def Store.setStatus (s : Store) (k : String) (v : Status) : Store :=
  ⟨updateEntry s.entries k (fun e => { e with status := some v })⟩

def Store.setDuration (s : Store) (k : String) (v : DurVal) : Store :=
  ⟨updateEntry s.entries k (fun e => { e with duration := some v })⟩

def Store.setFailureMessage (s : Store) (k : String) (v : String) : Store :=
  ⟨updateEntry s.entries k (fun e => { e with failureMessage := some v })⟩

def Store.setDiff (s : Store) (k : String) (exp act : String) : Store :=
  ⟨updateEntry s.entries k (fun e => { e with diff := some (exp, act) })⟩

def Store.getEntry (s : Store) (k : String) : Option Entry :=
  lookupEntry s.entries k

def Store.getStatus (s : Store) (k : String) : Option Status :=
  (lookupEntry s.entries k).bind (·.status)

def Store.getDiff (s : Store) (k : String) : Option (String × String) :=
  (lookupEntry s.entries k).bind (·.diff)

def Store.allKeys (s : Store) : List String :=
  s.entries.map (·.1)

/-! ## Character classes and scanning helpers

JS regex character classes restricted to the ASCII range (the source's
patterns only ever meet ASCII runner output; Unicode members of `\s` are
not modelled). -/

/-- JS `\w`: `[A-Za-z0-9_]`. -/
def isWordChar (c : Char) : Bool := c.isAlpha || c.isDigit || c = '_'

/-- JS `\s` (ASCII part): space, tab, newline, carriage return, vertical
tab, form feed. -/
def isJsSpace (c : Char) : Bool :=
  c = ' ' || c = '\t' || c = '\n' || c = '\r' || c = '\x0b' || c = '\x0c'

/-- The class `[\w\.]` from `TEST_START_REGEX`. -/
def isPathChar (c : Char) : Bool := isWordChar c || c = '.'

/-- The class `[\d.]` from `RESULT_REGEX`'s duration group. -/
def isDurChar (c : Char) : Bool := c.isDigit || c = '.'

/-- `needle` occurs as a contiguous substring of `hay`
(JS `String.prototype.includes`). -/
def containsSub : List Char → List Char → Bool
  | hay, needle =>
    match hay with
    | [] => List.isPrefixOf needle []
    | _ :: rest => List.isPrefixOf needle hay || containsSub rest needle

/-! ## ANSI escape stripping

`ANSI_CODE_REGEX = /\u001b\[\d+m/g` applied with `String.replace(…, "")`.
JS global replace scans left to right, deleting each non-overlapping match
and resuming after it.  Because a match must begin with `ESC` and the
pending partial-match text (`ESC`, `ESC[`, `ESC[digits`) contains no
second `ESC` after its head, restarting a failed partial match at the
failing character is equivalent, so the scan is a DFA that buffers the
pending partial match in its mode. -/

/-- DFA mode for `stripAnsi`: nothing pending, a pending `ESC`, or a
pending `ESC[` plus the digits read so far. -/
inductive AnsiMode where
  | normal
  | sawEsc
  | sawBracket (ds : List Char)
deriving DecidableEq, Repr

def stripAnsiGo : AnsiMode → List Char → List Char
  | .normal, [] => []
  | .sawEsc, [] => ['\x1b']
  | .sawBracket ds, [] => '\x1b' :: '[' :: ds
  | .normal, c :: rest =>
    if c = '\x1b' then stripAnsiGo .sawEsc rest
    else c :: stripAnsiGo .normal rest
  | .sawEsc, c :: rest =>
    if c = '[' then stripAnsiGo (.sawBracket []) rest
    else if c = '\x1b' then '\x1b' :: stripAnsiGo .sawEsc rest
    else '\x1b' :: c :: stripAnsiGo .normal rest
  | .sawBracket ds, c :: rest =>
    if c.isDigit then stripAnsiGo (.sawBracket (ds ++ [c])) rest
    else if c = 'm' ∧ ds ≠ [] then stripAnsiGo .normal rest
    else if c = '\x1b' then ('\x1b' :: '[' :: ds) ++ stripAnsiGo .sawEsc rest
    else ('\x1b' :: '[' :: ds) ++ (c :: stripAnsiGo .normal rest)

/-- `output.replace(TestRunner.ANSI_CODE_REGEX, "")`. -/
def stripAnsi (cs : List Char) : List Char := stripAnsiGo .normal cs

/-! ## Line splitting -/

/-- JS `String.prototype.split("\n")`: `"a\n".split` is `["a", ""]`,
`"".split` is `[""]`. -/
def splitOnNl : List Char → List (List Char)
  | [] => [[]]
  | c :: rest =>
    if c = '\n' then [] :: splitOnNl rest
    else
      match splitOnNl rest with
      | [] => [[c]]
      | l :: ls => (c :: l) :: ls

/-- Split a buffer at its last newline, keeping the newline with the first
part: `some (complete, remainder)` when a `'\n'` exists (the source's
`lastIndexOf("\n")` + two `substring`s in `processParsingBuffer`),
`none` when the buffer holds no complete line. -/
def splitAtLastNl : List Char → Option (List Char × List Char)
  | [] => none
  | c :: rest =>
    match splitAtLastNl rest with
    | some (p, r) => some (c :: p, r)
    | none => if c = '\n' then some (['\n'], rest) else none

/-! ## The runner's regexes

Each JS regex of `testRunner.ts` is embedded as a deterministic scanner.
`RegExp.prototype.exec` tries successive start positions left to right; at
a fixed start, every quantifier below is greedy but cannot usefully
backtrack (a shortened `\w+`/`\s+`/`[\w.]+`/`[^)]+`/`[\d.]+` run leaves as
next character a member of the same class, never the required delimiter),
so a single greedy pass per start position is exact. -/

/-- One start position of `TEST_START_REGEX = /(\w+)\s+\(([\w\.]+)\)/`:
returns (group 1, group 2). -/
def tryTestStartAt (cs : List Char) : Option (List Char × List Char) :=
  let w := cs.takeWhile isWordChar
  let r1 := cs.dropWhile isWordChar
  if w = [] then none else
  if r1.takeWhile isJsSpace = [] then none else
  match r1.dropWhile isJsSpace with
  | '(' :: r3 =>
    let p := r3.takeWhile isPathChar
    if p = [] then none else
    (match r3.dropWhile isPathChar with
     | ')' :: _ => some (w, p)
     | _ => none)
  | _ => none

/-- `TestRunner.TEST_START_REGEX.exec(line)`. -/
def execTestStart : List Char → Option (List Char × List Char)
  | [] => none
  | c :: rest =>
    match tryTestStartAt (c :: rest) with
    | some r => some r
    | none => execTestStart rest

/-- The alternation `(ok|skipped|FAIL|ERROR)` of `RESULT_REGEX`, tried in
written order. -/
inductive ResKind where
  | ok
  | skipped
  | fail
  | err
deriving DecidableEq, Repr

def matchResultAlt (cs : List Char) : Option (ResKind × List Char) :=
  if List.isPrefixOf "ok".data cs then some (.ok, cs.drop 2)
  else if List.isPrefixOf "skipped".data cs then some (.skipped, cs.drop 7)
  else if List.isPrefixOf "FAIL".data cs then some (.fail, cs.drop 4)
  else if List.isPrefixOf "ERROR".data cs then some (.err, cs.drop 5)
  else none

/-- The optional duration group `(?:\s+\(([\d.]+)s\))?` of `RESULT_REGEX`:
`some digits` when present, `none` when the group does not match (the
overall match still succeeds). -/
def tryDuration (cs : List Char) : Option (List Char) :=
  if cs.takeWhile isJsSpace = [] then none else
  match cs.dropWhile isJsSpace with
  | '(' :: r2 =>
    let ds := r2.takeWhile isDurChar
    if ds = [] then none else
    (match r2.dropWhile isDurChar with
     | 's' :: ')' :: _ => some ds
     | _ => none)
  | _ => none

/-- One start position of
`RESULT_REGEX = /\.\.\.\s+(ok|skipped|FAIL|ERROR)(?:\s+\(([\d.]+)s\))?/`. -/
def tryResultAt (cs : List Char) : Option (ResKind × Option (List Char)) :=
  match cs with
  | '.' :: '.' :: '.' :: r1 =>
    if r1.takeWhile isJsSpace = [] then none else
    (match matchResultAlt (r1.dropWhile isJsSpace) with
     | some (kind, r3) => some (kind, tryDuration r3)
     | none => none)
  | _ => none

/-- `TestRunner.RESULT_REGEX.exec(line)`. -/
def execResult : List Char → Option (ResKind × Option (List Char))
  | [] => none
  | c :: rest =>
    match tryResultAt (c :: rest) with
    | some r => some r
    | none => execResult rest

/-- The text before the last `')'` of the input, or `none` when no `')'`
occurs: the greedy `(.+)\)` tail of `SUMMARY_REGEX` (inputs are single
lines, so `.`'s newline exclusion is vacuous). -/
def beforeLastClose : List Char → Option (List Char)
  | [] => none
  | c :: rest =>
    match beforeLastClose rest with
    | some p => some (c :: p)
    | none => if c = ')' then some [] else none

/-- One start position of
`SUMMARY_REGEX = /(FAIL|ERROR):\s+(\w+)\s+\((.+)\)/`: returns
(group 2 = method, group 3 = path). -/
def trySummaryAt (cs : List Char) : Option (List Char × List Char) :=
  let r0 : Option (List Char) :=
    if List.isPrefixOf "FAIL:".data cs then some (cs.drop 5)
    else if List.isPrefixOf "ERROR:".data cs then some (cs.drop 6)
    else none
  match r0 with
  | none => none
  | some r0 =>
    if r0.takeWhile isJsSpace = [] then none else
    let r1 := r0.dropWhile isJsSpace
    let w := r1.takeWhile isWordChar
    if w = [] then none else
    let r2 := r1.dropWhile isWordChar
    if r2.takeWhile isJsSpace = [] then none else
    (match r2.dropWhile isJsSpace with
     | '(' :: r4 =>
       (match beforeLastClose r4 with
        | some p => if p = [] then none else some (w, p)
        | none => none)
     | _ => none)

/-- `TestRunner.SUMMARY_REGEX.exec(line)`. -/
def execSummary : List Char → Option (List Char × List Char)
  | [] => none
  | c :: rest =>
    match trySummaryAt (c :: rest) with
    | some r => some r
    | none => execSummary rest

/-- `TestRunner.SEPARATOR_LINE`: 70 dashes. -/
def sepLine : List Char := List.replicate 70 '-'

/-! ## The streaming result parser (`TestRunner.parseResults` and friends)

State carried across chunks, from the `TestRunner` fields
`parsingTestPath`, `parsingFailureForPath`, `failureBlock`,
`testStartTimes`, plus the Status Store they write into.  `Date.now()` is
the pass's `now` parameter.  The `TestHistoryManager` recording and
`shouldRefresh`/`triggerRefresh` UI signalling are omitted (they never
touch the Status Store). -/

structure PState where
  store : Store
  parsingTestPath : Option String
  parsingFailureForPath : Option String
  failureBlock : List (List Char)
  testStartTimes : List (String × Nat)
deriving DecidableEq, Repr

/-- JS `Map.prototype.set`: update in place, else append. -/
def setTime (ts : List (String × Nat)) (k : String) (v : Nat) :
    List (String × Nat) :=
  match ts with
  | [] => [(k, v)]
  | (k', v') :: rest =>
    if k' = k then (k', v) :: rest else (k', v') :: setTime rest k v

/-- JS `Map.prototype.get`. -/
def lookupTime (ts : List (String × Nat)) (k : String) : Option Nat :=
  match ts with
  | [] => none
  | (k', v') :: rest => if k' = k then some v' else lookupTime rest k

/-- Path normalisation used for both `TEST_START_REGEX` and
`SUMMARY_REGEX` hits: the dotted path always ends in `.<method>` (use the
parenthesised path as-is when it already does, or equals the bare method
name). -/
def normPath (p m : List Char) : String :=
  if List.isSuffixOf ('.' :: m) p || p = m then String.mk p
  else String.mk (p ++ '.' :: m)

/-- The accumulation loop of `processFailureBlock`: `expected` collects
`- `-prefixed lines, `actual` collects `+ `-prefixed lines, each
contributing its text after the marker plus a trailing newline; the flag
records whether any diff line was seen. -/
def diffAccum (lines : List (List Char)) : List Char × List Char × Bool :=
  lines.foldl
    (fun acc line =>
      if List.isPrefixOf "- ".data line then
        (acc.1 ++ line.drop 2 ++ ['\n'], acc.2.1, true)
      else if List.isPrefixOf "+ ".data line then
        (acc.1, acc.2.1 ++ line.drop 2 ++ ['\n'], true)
      else acc)
    ([], [], false)

/-- `TestRunner.processFailureBlock`: extract the diff heuristically and
store it when any marker line was present. -/
def processFailureBlock (store : Store) (testPath : String)
    (lines : List (List Char)) : Store :=
  match diffAccum lines with
  | (exp, act, hasDiff) =>
    if hasDiff then store.setDiff testPath (String.mk exp) (String.mk act)
    else store

/-- The summary-header and failure-block steps of the per-line loop of
`parseResults` (reached when the line was not consumed by a terminal
result: the loop's `continue` statements are modelled by not calling this
function). -/
def procLineTail (st : PState) (line : List Char) : PState :=
  match execSummary line with
  | some (m, p) =>
    let full := normPath p m
    { st with
      store := st.store.setStatus full .failed
      parsingFailureForPath := some full
      failureBlock := [] }
  | none =>
    match st.parsingFailureForPath with
    | some fp =>
      if List.isPrefixOf sepLine line then
        { st with
          store := processFailureBlock st.store fp st.failureBlock
          parsingFailureForPath := none
          failureBlock := [] }
      else { st with failureBlock := st.failureBlock ++ [line] }
    | none => st

/-- One iteration of the `for` loop in `TestRunner.parseResults`:
empty-line skip, test-start recognition (live `running` transition),
terminal-result recognition for the open test (same line allowed),
then the summary-header / failure-block steps. -/
def procLine (now : Nat) (st : PState) (line : List Char) : PState :=
  if line = [] then st
  else
    let st1 : PState :=
      match execTestStart line with
      | some (m, p) =>
        let full := normPath p m
        { st with
          parsingTestPath := some full
          store := st.store.setStatus full .running
          testStartTimes := setTime st.testStartTimes full now }
      | none => st
    match st1.parsingTestPath with
    | some tp =>
      (match execResult line with
       | some (kind, durOpt) =>
         let status : Status :=
           match kind with
           | .ok => .passed
           | .skipped => .skipped
           | .fail => .failed
           | .err => .failed
         let store1 :=
           match kind with
           | .fail => st1.store.setFailureMessage tp
               "Test Failed. Check terminal for details."
           | .err => st1.store.setFailureMessage tp
               "Test Failed. Check terminal for details."
           | _ => st1.store
         let store2 :=
           match durOpt with
           | some ds => store1.setDuration tp (.reported ds)
           | none =>
             match lookupTime st1.testStartTimes tp with
             | some t0 => store1.setDuration tp (.computed (now - t0))
             | none => store1
         { st1 with
           store := store2.setStatus tp status
           parsingTestPath := none }
       | none => procLineTail st1 line)
    | none => procLineTail st1 line

/-- `TestRunner.parseResults(node, output)`: strip ANSI codes, split into
lines, run the per-line loop, then — only when the watched node is a leaf
— set its status from a final summary token found anywhere in this batch's
cleaned text. -/
def parseResults (node : TestNode) (output : List Char) (now : Nat)
    (ps : PState) : PState :=
  let clean := stripAnsi output
  let ps1 := (splitOnNl clean).foldl (procLine now) ps
  match node.children with
  | .nil =>
    if containsSub clean "FAILED (failures=".data
        || containsSub clean "FAILED (errors=".data then
      match node.dottedPath with
      | some d =>
        if d = "" then ps1
        else { ps1 with store := ps1.store.setStatus d .failed }
      | none => ps1
    else if containsSub clean "OK".data then
      match node.dottedPath with
      | some d =>
        if d = "" then ps1
        else { ps1 with store := ps1.store.setStatus d .passed }
      | none => ps1
    else ps1
  | .cons _ _ => ps1

/-- The chunk-level state: the un-parsed tail (`parsingBuffer`) plus the
parser state. -/
structure RState where
  buffer : List Char
  ps : PState
deriving DecidableEq, Repr

/-- One data-arrival plus one `processParsingBuffer` pass: append the
chunk, then parse the complete lines up to the last newline, retaining the
remainder (nothing is parsed when the buffer holds no newline, which also
covers the source's empty-buffer early return). -/
def feedChunk (node : TestNode) (now : Nat) (rs : RState)
    (chunk : List Char) : RState :=
  match splitAtLastNl (rs.buffer ++ chunk) with
  | none => { buffer := rs.buffer ++ chunk, ps := rs.ps }
  | some (complete, rest) =>
    { buffer := rest, ps := parseResults node complete now rs.ps }

/-- Feed a whole run: buffer reset, one pass per chunk, and the final
flush pass after process exit (`processParsingBuffer` called once more
with no new data). -/
def feed (node : TestNode) (now : Nat) (ps0 : PState)
    (chunks : List (List Char)) : RState :=
  feedChunk node now (chunks.foldl (feedChunk node now) ⟨[], ps0⟩) []

/-! ## The status aggregator (`TestItem.computeStatus`, `testTree.ts`)

The direct status is looked up only for a truthy `dottedPath`
(`node.dottedPath ? getStatus(...) : undefined`).  The source's one-pass
flag loop over the children (`hasFailed`, `hasPending`, …) is expressed
through membership in the list of recursively derived child statuses,
which records exactly the same facts. -/

/-- `node.dottedPath ? TestStateManager.getInstance().getStatus(node.dottedPath) : undefined`. -/
def directStatus (store : Store) (dp : Option String) : Option Status :=
  match dp with
  | some d => if d = "" then none else store.getStatus d
  | none => none

mutual
/-- `TestItem.computeStatus` from `testTree.ts`. -/
def computeStatus (store : Store) : TestNode → Status
  | .mk _ _ dp c =>
    let direct := directStatus store dp
    match c with
    | .nil => direct.getD .unknown
    | .cons _ _ =>
      let cs := childStatuses store c
      if cs.contains .running then .running
      else if cs.contains .pending then .pending
      else if direct = some .failed then .failed
      else
        let result : Status :=
          if cs.contains .failed then .failed
          else if cs.contains .passed then .passed
          else if cs.contains .aborted then .aborted
          else if cs.contains .skipped then .skipped
          else .unknown
        if result = .unknown then
          match direct with
          | some d => d
          | none => result
        else result

/-- The recursively derived statuses of the children, in order. -/
def childStatuses (store : Store) : Forest → List Status
  | .nil => []
  | .cons n rest => computeStatus store n :: childStatuses store rest
end

mutual
/-- Claim C2's aggregation rule, written from the claim's own words: the
first matching rule of the stated precedence over the recursively derived
child statuses (leaf: the node's own entry, `unknown` when absent; a JS
falsy `dottedPath` has no entry). -/
def specDerived (store : Store) : TestNode → Status
  | .mk _ _ dp c =>
    let direct := directStatus store dp
    match c with
    | .nil => direct.getD .unknown
    | .cons _ _ =>
      if specAnyChild store c .running then .running
      else if specAnyChild store c .pending then .pending
      else if direct = some .failed then .failed
      else if specAnyChild store c .failed then .failed
      else if specAnyChild store c .passed then .passed
      else if specAnyChild store c .aborted then .aborted
      else if specAnyChild store c .skipped then .skipped
      else direct.getD .unknown

/-- "any child is ⟨s⟩", over the recursively derived child statuses. -/
def specAnyChild (store : Store) : Forest → Status → Bool
  | .nil, _ => false
  | .cons n rest, s =>
    (specDerived store n == s) || specAnyChild store rest s
end

/-! ## Cancellation (`TestRunner.cancel`)

The store transformation performed inside the `djangoTerminal` guard:
walk the snapshot of all known keys and force every `pending`/`running`
entry to `aborted`.  Signal delivery and the UI message are external
effects. -/

/-- One iteration of the cancel loop:
`if (status === "pending" || status === "running") setStatus(key, "aborted")`. -/
def cancelStep (s : Store) (k : String) : Store :=
  if s.getStatus k = some .pending ∨ s.getStatus k = some .running then
    s.setStatus k .aborted
  else s

/-- The cancel loop over `getAllKeys()` (snapshot taken before the loop,
statuses re-read from the evolving store, exactly as the source does). -/
def cancelMark (s : Store) : Store := s.allKeys.foldl cancelStep s

/-! ## Finalization (`TestRunner.finalizeNodeStatus`) -/

/-- The configuration slice finalization and the command builder read:
the active profile name, the profile table, and `testArguments`. -/
structure RunConfig where
  activeProfile : String
  profiles : List (String × List String)
  testArguments : List String

def lookupProfile (cfg : RunConfig) : Option (List String) :=
  match cfg.profiles.find? (fun p => p.1 == cfg.activeProfile) with
  | some p => some p.2
  | none => none

/-- `profiles[activeProfile] || config.get("testArguments") || []`: the
argument list `finalizeNodeStatus` scans for `--failfast` (note it is the
profile's list *or* `testArguments`, not their concatenation). -/
def failFastArgs (cfg : RunConfig) : List String :=
  match lookupProfile cfg with
  | some a => a
  | none => cfg.testArguments

def isFailFast (cfg : RunConfig) : Bool :=
  (failFastArgs cfg).contains "--failfast"

/-- `buildTestCommandParts`: `rawTestArgs = [...profileArgs, ...testArguments]`
(the argument list actually combined into the run command). -/
def rawTestArgs (cfg : RunConfig) : List String :=
  (lookupProfile cfg).getD [] ++ cfg.testArguments

/-- `buildTestCommandParts`' test-argument post-processing: drop
`--buffer`/`-b`, then ensure verbosity and `--noinput`.  Template
substitution and interpreter resolution are external and add no test
arguments. -/
def testArgsFor (cfg : RunConfig) : List String :=
  let t1 := (rawTestArgs cfg).filter (fun a => !(a == "--buffer" || a == "-b"))
  let t2 :=
    if !(t1.contains "-v") && !(t1.contains "--verbose") then t1 ++ ["-v", "2"]
    else t1
  if !(t2.contains "--noinput") && !(t2.contains "--no-input") then
    t2 ++ ["--noinput"]
  else t2

/-- The status a still-`pending` node is finalized to. -/
def finalTarget (cfg : RunConfig) (success : Bool) : Status :=
  if success then .passed
  else if isFailFast cfg then .skipped
  else .unknown

mutual
/-- `TestRunner.finalizeNodeStatus`: children first, then — when the
node's `dottedPath` is truthy and its entry is still `pending` — write
the finalization status. -/
def finalizeNode (cfg : RunConfig) (success : Bool) (n : TestNode)
    (s : Store) : Store :=
  match n with
  | .mk _ _ dp c =>
    let s1 := finalizeForest cfg success c s
    match dp with
    | some d =>
      if d = "" then s1
      else if s1.getStatus d = some .pending then
        s1.setStatus d (finalTarget cfg success)
      else s1
    | none => s1

def finalizeForest (cfg : RunConfig) (success : Bool) :
    Forest → Store → Store
  | .nil, s => s
  | .cons n rest, s =>
    finalizeForest cfg success rest (finalizeNode cfg success n s)
end

/-! ## Pending reset (`setPendingRecursive` inside `TestRunner.runInTerminal`)

Executed on the selected (or resolved) node before
`executeCommandInTerminal` spawns the subprocess. -/

mutual
def setPendingRec (n : TestNode) (s : Store) : Store :=
  match n with
  | .mk _ _ dp c =>
    let s1 :=
      match dp with
      | some d => if d = "" then s else s.setStatus d .pending
      | none => s
    setPendingForest c s1

def setPendingForest : Forest → Store → Store
  | .nil, s => s
  | .cons n rest, s => setPendingForest rest (setPendingRec n s)
end

/-! ## Test-class recognition (`testUtils.ts`) -/

/-- `DEFAULT_TEST_BASE_CLASSES`. -/
def defaultTestBaseClasses : List String :=
  ["TestCase", "TransactionTestCase", "SimpleTestCase", "LiveServerTestCase",
   "StaticLiveServerTestCase", "APITestCase", "APISimpleTestCase",
   "APITransactionTestCase", "AsyncTestCase", "IsolatedAsyncioTestCase",
   "unittest.TestCase", "TestSuite"]

/-- `getTestBaseClasses()`: the defaults plus the configured
`testBaseClasses` (a set in the source; only membership is ever used). -/
def getTestBaseClasses (custom : List String) : List String :=
  defaultTestBaseClasses ++ custom

/-- The fast path shared by `isTestClass`/`isTestClassFromLine`:
`length ≥ 4` and the first four characters spell `Test`, i.e. the name
starts with `"Test"`. -/
def startsWithTest (cs : List Char) : Bool := List.isPrefixOf "Test".data cs

/-- JS `String.prototype.trim` (ASCII whitespace). -/
def trimC (cs : List Char) : List Char :=
  ((cs.dropWhile isJsSpace).reverse.dropWhile isJsSpace).reverse

/-- `baseClass.substring(baseClass.lastIndexOf('.') + 1)`: the segment
after the last dot (the whole string when no dot occurs). -/
def afterLastDot (cs : List Char) : List Char :=
  ((cs.reverse.takeWhile (fun c => c ≠ '.')).reverse)

/-- JS `String.prototype.split(',')`. -/
def splitOnComma : List Char → List (List Char)
  | [] => [[]]
  | c :: rest =>
    if c = ',' then [] :: splitOnComma rest
    else
      match splitOnComma rest with
      | [] => [[c]]
      | l :: ls => (c :: l) :: ls

/-- `isTestClass(className, baseClasses)` from `testUtils.ts` (the
`string` overload is handled by the caller's comma split): name prefix
fast path, else any declared base whose last segment is a known test base
class or itself starts with `Test`. -/
def isTestClass (custom : List String) (className : List Char)
    (baseClasses : Option (List (List Char))) : Bool :=
  if startsWithTest className then true
  else
    match baseClasses with
    | some bases =>
      bases.any (fun b =>
        let bn := afterLastDot (trimC b)
        (getTestBaseClasses custom).contains (String.mk bn) || startsWithTest bn)
    | none => false

/-- One start position of
`BASE_CLASS_REGEX = /class\s+\w+\s*\(([^)]+)\)/` (note `\s*`, and the
pattern is not anchored). -/
def tryBaseClassAt (cs : List Char) : Option (List Char) :=
  if List.isPrefixOf "class".data cs then
    let r0 := cs.drop 5
    if r0.takeWhile isJsSpace = [] then none else
    let r1 := r0.dropWhile isJsSpace
    if r1.takeWhile isWordChar = [] then none else
    (match (r1.dropWhile isWordChar).dropWhile isJsSpace with
     | '(' :: r3 =>
       let b := r3.takeWhile (fun c => c ≠ ')')
       if b = [] then none else
       (match r3.dropWhile (fun c => c ≠ ')') with
        | ')' :: _ => some b
        | _ => none)
     | _ => none)
  else none

/-- `extractBaseClasses` minus the final comma split (group 1 of
`BASE_CLASS_REGEX`). -/
def execBaseClass : List Char → Option (List Char)
  | [] => none
  | c :: rest =>
    match tryBaseClassAt (c :: rest) with
    | some r => some r
    | none => execBaseClass rest

/-- `isTestClassFromLine(className, line)` from `testUtils.ts`. -/
def isTestClassFromLine (custom : List String) (className : List Char)
    (line : List Char) : Bool :=
  if startsWithTest className then true
  else isTestClass custom className ((execBaseClass line).map splitOnComma)

/-! ## Per-file discovery (`TestDiscovery.parseFile`)

A file is addressed by the components of its workspace-relative path
(`relativePath.split(path.sep)`; the `vscode.Uri` is this path).  The
configured method prefix (`testMethodPattern`, default `test_`) is the
`pfx` parameter.  Source locations (`range`) are navigation metadata and
are omitted.  The source mutates `fileNode.children` through the aliased
`currentClass` reference; here the open class is carried separately in
`PFState.cur` and appended to the completed children when it closes
(next class declaration or end of file), which preserves the source's
child order because nothing else is appended while a class is open. -/

/-- `^class\s+(\w+)(?:\(([^)]+)\))?` from `TestDiscovery.classRegex`,
anchored; `parseFile` reads only group 1, so the optional base-list group
(which never affects match success) is not returned. -/
def matchClassDecl (line : List Char) : Option (List Char) :=
  if List.isPrefixOf "class".data line then
    let r0 := line.drop 5
    if r0.takeWhile isJsSpace = [] then none else
    let w := (r0.dropWhile isJsSpace).takeWhile isWordChar
    if w = [] then none else some w
  else none

/-- `new RegExp("^\\s+(?:async\\s+)?def\\s+(" + pfx + "\\w+)")` from
`TestDiscovery.methodRegex`, anchored: at least one leading whitespace
character, optional `async`, `def`, then the captured name = the literal
prefix followed by at least one word character. -/
def matchMethodDecl (pfx : List Char) (line : List Char) : Option (List Char) :=
  if line.takeWhile isJsSpace = [] then none else
  let r1 := line.dropWhile isJsSpace
  let r2 :=
    if List.isPrefixOf "async".data r1 then
      let ra := r1.drop 5
      if ra.takeWhile isJsSpace = [] then r1 else ra.dropWhile isJsSpace
    else r1
  if List.isPrefixOf "def".data r2 then
    let r3 := r2.drop 3
    if r3.takeWhile isJsSpace = [] then none else
    let r4 := r3.dropWhile isJsSpace
    if List.isPrefixOf pfx r4 then
      let w := (r4.drop pfx.length).takeWhile isWordChar
      if w = [] then none else some (pfx ++ w)
    else none
  else none

def Forest.append : Forest → Forest → Forest
  | .nil, g => g
  | .cons n r, g => .cons n (Forest.append r g)

def Forest.snoc (f : Forest) (n : TestNode) : Forest :=
  f.append (.cons n .nil)

/-- `relativePath.replace(/\.py$/, '')` acting on the final path
component. -/
def stripPyL (cs : List Char) : List Char :=
  if List.isSuffixOf ".py".data cs then cs.take (cs.length - 3) else cs

/-- `relativePath.replace(/\.py$/, '').replace(<sep>, '.')`: the module
dotted path of a file (path components have no separator characters, so
the two formulations agree). -/
def fileDotted (parts : List String) : String :=
  String.intercalate "."
    (parts.dropLast ++ [String.mk (stripPyL ((parts.getLast?.getD "").data))])

/-- The per-line scan state of `parseFile`: the completed children of the
file node and the open class (`currentClass`). -/
structure PFState where
  done : Forest
  cur : Option TestNode

/-- Close the open class, appending it to the completed children. -/
def flushCur (st : PFState) : Forest :=
  match st.cur with
  | some c => st.done.snoc c
  | none => st.done

/-- Append a method node to the open class. -/
def addMethodToClass (c : TestNode) (m : String) : TestNode :=
  match c with
  | .mk n t dp kids =>
    .mk n t dp
      (kids.snoc (.mk m .method (some ((dp.getD "") ++ "." ++ m)) .nil))

/-- One iteration of the line loop of `parseFile`.  The source's
`continue` after a successful class match, and the fall-through to the
`def` check when the `class ` guard passed but the anchored regex failed,
are both captured by running the class regex only under its guard. -/
def parseFileStep (pfx : List Char) (fd : String) (st : PFState)
    (line : List Char) : PFState :=
  let trimmed := line.dropWhile isJsSpace
  match (if List.isPrefixOf "class ".data trimmed then matchClassDecl line
         else none) with
  | some cname =>
    if startsWithTest cname then
      { done := flushCur st
        cur := some (.mk (String.mk cname) .cls
          (some (fd ++ "." ++ String.mk cname)) .nil) }
    else { done := flushCur st, cur := none }
  | none =>
    if List.isPrefixOf "def ".data trimmed
        || List.isPrefixOf "async def ".data trimmed then
      match matchMethodDecl pfx line with
      | some mname =>
        (match st.cur with
         | some c => { st with cur := some (addMethodToClass c (String.mk mname)) }
         | none =>
           { st with
             done := st.done.snoc (.mk (String.mk mname) .method
               (some (fd ++ "." ++ String.mk mname)) .nil) })
      | none => st
    else st

/-- `TestDiscovery.parseFile`: the test-file gate (inside a
`tests`/`test` directory, or named `test.py`/`tests.py`), the line scan,
and the discard of files with no captured children. -/
def parseFile (pfx : List Char) (parts : List String) (content : List Char) :
    Option TestNode :=
  let isInTestsDir := parts.any (fun part => part == "tests" || part == "test")
  let fileName := parts.getLast?.getD ""
  let isTestFile := fileName == "test.py" || fileName == "tests.py"
  if !isInTestsDir && !isTestFile then none
  else
    let fd := fileDotted parts
    let st := (splitOnNl content).foldl (parseFileStep pfx fd) ⟨.nil, none⟩
    match flushCur st with
    | .nil => none
    | .cons n rest => some (.mk fileName .file (some fd) (.cons n rest))

/-! ## Tree assembly (`TestDiscovery.structureTests`)

The dotted path of a folder is its directory path so far with separators
replaced by dots.  The Status Store registration of discovered paths and
the final recursive sibling sort (`sortNodes`, a locale-sensitive
`localeCompare` ordering that only permutes siblings) are omitted: no
claim depends on sibling order, and registration touches only the store. -/

/-- `currentLevel.find(n => n.name === part && n.type === 'folder')`,
returning the children of the first hit. -/
def findFolderChildren : Forest → String → Option Forest
  | .nil, _ => none
  | .cons n r, p =>
    if n.name == p && n.ntype == NodeType.folder then some n.children
    else findFolderChildren r p

/-- Replace the children of the first folder named `p` (the source
mutates the found node in place). -/
def replaceFolderChildren : Forest → String → Forest → Forest
  | .nil, _, _ => .nil
  | .cons n r, p, kids =>
    if n.name == p && n.ntype == NodeType.folder then
      .cons (.mk n.name n.ntype n.dottedPath kids) r
    else .cons n (replaceFolderChildren r p kids)

/-- Walk the directory components of one file, reusing or creating a
folder node per component (matched by name within the current sibling
list), and attach the file node under the deepest folder.  The source's
"paranoid" second `find` over the same unchanged list is collapsed into
the single lookup it repeats. -/
def insertPath (level : Forest) : List String → List String → TestNode → Forest
  | [], _, fileNode => level.snoc fileNode
  | part :: rest, partsSoFar, fileNode =>
    let newParts := partsSoFar ++ [part]
    match findFolderChildren level part with
    | some kids =>
      replaceFolderChildren level part (insertPath kids rest newParts fileNode)
    | none =>
      level.snoc (.mk part .folder
        (some (String.intercalate "." newParts))
        (insertPath .nil rest newParts fileNode))

/-- `TestDiscovery.structureTests` over (path components, parsed file
node) pairs; the directory components are all but the last path part. -/
def structureTests (files : List (List String × TestNode)) : Forest :=
  files.foldl (fun roots pf => insertPath roots pf.1.dropLast [] pf.2) .nil

/-- `TestDiscovery.discover` (modulo the external file search): parse
every file, keep the non-null results, assemble.  `updateFile` re-runs
the same assembly over the updated index, so every discovered forest —
full or incremental — is `structureTests` of some parsed-file list. -/
def discover (pfx : List Char) (files : List (List String × List Char)) :
    Forest :=
  structureTests
    (files.filterMap (fun f => (parseFile pfx f.1 f.2).map (fun n => (f.1, n))))

/-! ## Canonical batch processing (used to reason about claim C3) -/

/-- The pure per-line part of a `parseResults` batch: strip ANSI codes,
split, fold the line loop.  For a composite watched node this is all of
`parseResults`. -/
def procText (now : Nat) (t : List Char) (ps : PState) : PState :=
  (splitOnNl (stripAnsi t)).foldl (procLine now) ps

/-- The complete-lines part of a buffer (empty when it holds no newline). -/
def splitComp (cs : List Char) : List Char :=
  match splitAtLastNl cs with
  | some (p, _) => p
  | none => []

/-- The remainder of a buffer after its last newline (the whole buffer
when it holds no newline). -/
def splitRem (cs : List Char) : List Char :=
  match splitAtLastNl cs with
  | some (_, r) => r
  | none => cs

/-! ## Folder-shape observers (used to state claim C6)

`structureTests` deduplicates folder segments by name within each sibling
list; these predicates state that shape. -/

/-- The names of the folder-type nodes of one sibling list, in order. -/
def folderNames : Forest → List String
  | .nil => []
  | .cons n rest =>
    (if n.ntype == NodeType.folder then [n.name] else []) ++ folderNames rest

/-- The names of one sibling list are pairwise distinct. -/
def distinctNames : List String → Bool
  | [] => true
  | x :: xs => !(decide (x ∈ xs)) && distinctNames xs

mutual
/-- Every sibling list of the node's subtree carries pairwise distinct
folder names. -/
def foldersOkN : TestNode → Bool
  | .mk _ _ _ c => distinctNames (folderNames c) && foldersOkEach c

def foldersOkEach : Forest → Bool
  | .nil => true
  | .cons n rest => foldersOkN n && foldersOkEach rest
end

/-- Every sibling list of the forest (the forest's own level included)
carries pairwise distinct folder names. -/
def foldersOkF (f : Forest) : Bool :=
  distinctNames (folderNames f) && foldersOkEach f

mutual
/-- No folder-type node occurs anywhere in the subtree. -/
def noFoldersN : TestNode → Bool
  | .mk _ t _ c => !(t == NodeType.folder) && noFoldersEach c

def noFoldersEach : Forest → Bool
  | .nil => true
  | .cons n rest => noFoldersN n && noFoldersEach rest
end

/-! ## Concrete inputs used by the claim theorems -/

/-- A fresh parser state over an empty store. -/
def initPS : PState := ⟨Store.empty, none, none, [], []⟩

/-- The observable data of a node (name, type, dotted path). -/
def nodeInfo : TestNode → String × NodeType × Option String
  | .mk n t d _ => (n, t, d)

/-- `nodeInfo` of each node of a forest, in order. -/
def forestInfos : Forest → List (String × NodeType × Option String)
  | .nil => []
  | .cons n r => nodeInfo n :: forestInfos r

/-- The spec's eight-line scenario (§8), newline-terminated. -/
def scenarioText : List Char :=
  ("test_total (billing.tests.test_invoice.InvoiceTests) ... ok\n"
    ++ "test_tax (billing.tests.test_invoice.InvoiceTests) ... FAIL\n"
    ++ "----------------------------------------------------------------------\n"
    ++ "FAIL: test_tax (billing.tests.test_invoice.InvoiceTests)\n"
    ++ "- 100\n"
    ++ "+ 110\n"
    ++ "----------------------------------------------------------------------\n"
    ++ "FAILED (failures=1)\n").data

/-- A composite run node for the scenario (the file node with its test
class as child). -/
def scenarioNode : TestNode :=
  .mk "test_invoice.py" .file (some "billing.tests.test_invoice")
    (.cons (.mk "InvoiceTests" .cls
      (some "billing.tests.test_invoice.InvoiceTests") .nil) .nil)

/-- The scenario fed to the parser as a single chunk. -/
def scenarioRun : RState := feed scenarioNode 0 initPS [scenarioText]

/-- The file of claim C7's discussion: a test class recognizable only
through its `TestCase` base. -/
def invoiceContent : List Char :=
  "class InvoiceTests(TestCase):\n    def test_total(self):\n        pass\n".data

def invoiceParsed : Option TestNode :=
  parseFile "test_".data ["billing", "tests", "test_invoice.py"] invoiceContent

/-- Claim C3's leaf-node counterexample: a batch whose text contains a
failure summary followed by a batch containing `OK`. -/
def c3Leaf : TestNode := .mk "t" .method (some "t") .nil

def c3Single : RState := feed c3Leaf 0 initPS ["FAILED (failures=1)\nOK\n".data]

def c3Split : RState :=
  feed c3Leaf 0 initPS ["FAILED (failures=1)\n".data, "OK\n".data]

/-- Claim C9's counterexample: a leaf whose own per-test line reports
`skipped` while the batch also contains the `OK` summary. -/
def c9Leaf : TestNode := .mk "test_x" .method (some "pkg.T.test_x") .nil

def c9Text : List Char := "test_x (pkg.T) ... skipped\nOK (skipped=1)\n".data

def c9Run : RState := feed c9Leaf 0 initPS [c9Text]

/-- The per-line pass of `c9Text` alone (no leaf summary step): shows the
per-test result that the summary step then overwrites. -/
def c9LineOnly : PState :=
  (splitOnNl (stripAnsi c9Text)).foldl (procLine 0) initPS

/-- Claim C5's counterexample configuration: the active profile exists
(with no arguments) while `--failfast` sits in `testArguments`. -/
def cfgFF : RunConfig := ⟨"Default", [("Default", [])], ["--failfast"]⟩

def c5Node : TestNode := .mk "test_a" .method (some "app.tests.T.test_a") .nil

def c5Store : Store := Store.empty.setStatus "app.tests.T.test_a" .pending

/-- Claim C6's counterexample input: `billing/tests.py` (module path
`billing.tests`) next to `billing/tests/test_invoice.py` (whose directory
`billing/tests` becomes a folder node with the same dotted path). -/
def c6Files : List (List String × List Char) :=
  [(["billing", "tests.py"],
    "class TestA:\n    def test_a(self):\n        pass\n".data),
   (["billing", "tests", "test_invoice.py"],
    "class TestB:\n    def test_b(self):\n        pass\n".data)]

def c6Forest : Forest := discover "test_".data c6Files

/-! ### Store lemmas -/

theorem lookupEntry_updateEntry (es : List (String × Entry)) (k k' : String)
    (f : Entry → Entry) :
    lookupEntry (updateEntry es k f) k' =
      if k' = k then some (f ((lookupEntry es k).getD {})) else lookupEntry es k' := by
  induction es with
  | nil =>
    by_cases h : k' = k
    · simp [updateEntry, lookupEntry, h]
    · have hs : ¬k = k' := fun hh => h hh.symm
      simp [updateEntry, lookupEntry, h, hs]
  | cons hd tl ih =>
    obtain ⟨k₀, e₀⟩ := hd
    by_cases h₀ : k₀ = k
    · subst h₀
      by_cases h' : k' = k₀
      · simp [updateEntry, lookupEntry, h']
      · have hs : ¬k₀ = k' := fun hh => h' hh.symm
        simp [updateEntry, lookupEntry, h', hs]
    · by_cases h' : k' = k₀
      · subst h'
        simp [updateEntry, lookupEntry, h₀, h₀]
      · have hne : ¬k₀ = k' := fun h => h' h.symm
        simp [updateEntry, lookupEntry, h₀, h', hne, ih]

theorem getStatus_setStatus (s : Store) (k k' : String) (v : Status) :
    (s.setStatus k v).getStatus k' =
      if k' = k then some v else s.getStatus k' := by
  simp only [Store.getStatus, Store.setStatus, lookupEntry_updateEntry]
  by_cases h : k' = k <;> simp [h]

theorem getStatus_setDuration (s : Store) (k k' : String) (v : DurVal) :
    (s.setDuration k v).getStatus k' = s.getStatus k' := by
  simp only [Store.getStatus, Store.setDuration, lookupEntry_updateEntry]
  by_cases h : k' = k <;> simp [h, Option.getD]
  cases lookupEntry s.entries k <;> simp

theorem getStatus_setFailureMessage (s : Store) (k k' : String) (v : String) :
    (s.setFailureMessage k v).getStatus k' = s.getStatus k' := by
  simp only [Store.getStatus, Store.setFailureMessage, lookupEntry_updateEntry]
  by_cases h : k' = k <;> simp [h, Option.getD]
  cases lookupEntry s.entries k <;> simp

theorem getStatus_setDiff (s : Store) (k k' : String) (exp act : String) :
    (s.setDiff k exp act).getStatus k' = s.getStatus k' := by
  simp only [Store.getStatus, Store.setDiff, lookupEntry_updateEntry]
  by_cases h : k' = k <;> simp [h, Option.getD]
  cases lookupEntry s.entries k <;> simp

/-! ## Claim theorems -/

/-- C1 (counterexample).  The claim states the stored diff of the
scenario's failing test is `expected = "100"`, `actual = "110"`; the code
(`processFailureBlock`) appends a newline to every captured diff line, so
the stored pair is `("100\n", "110\n")`, not `("100", "110")`. -/
theorem claim1_counterexample :
    scenarioRun.ps.store.getDiff
        "billing.tests.test_invoice.InvoiceTests.test_tax"
      ≠ some ("100", "110") := by
  decide

/-- C1 (amended).  For the spec's eight-line scenario fed to the
streaming parser against a composite run node, the final Status Store
maps `…test_total` to `passed` and `…test_tax` to `failed`, with a stored
diff whose expected text is `"100\n"` and whose actual text is `"110\n"`
(each captured diff line contributes its text plus a trailing newline). -/
theorem claim1_scenario :
    scenarioRun.ps.store.getStatus
        "billing.tests.test_invoice.InvoiceTests.test_total" = some .passed
    ∧ scenarioRun.ps.store.getStatus
        "billing.tests.test_invoice.InvoiceTests.test_tax" = some .failed
    ∧ scenarioRun.ps.store.getDiff
        "billing.tests.test_invoice.InvoiceTests.test_tax"
      = some ("100\n", "110\n") := by
  refine ⟨by decide, by decide, by decide⟩

/-- C7 (code bug).  `isTestClassFromLine` (used only by the run-at-cursor
path) recognizes `InvoiceTests(TestCase)` via its base class, but
`TestDiscovery.parseFile` consults only the `Test` name prefix: on the
failing input the class is not captured, its method is attached to the
file node with a class-less dotted path, and no class node exists. -/
theorem claim7_bug :
    invoiceParsed.map (fun n => forestInfos (TestNode.children n))
      = some [("test_total", .method,
               some "billing.tests.test_invoice.test_total")]
    ∧ isTestClassFromLine [] "InvoiceTests".data
        "class InvoiceTests(TestCase):".data = true := by
  refine ⟨by decide, by decide⟩

/-! ### Cancellation (C4) -/

theorem getStatus_some_mem_allKeys (s : Store) (p : String) (v : Status)
    (h : s.getStatus p = some v) : p ∈ s.allKeys := by
  obtain ⟨entries⟩ := s
  simp only [Store.getStatus, Store.allKeys] at h ⊢
  induction entries with
  | nil => simp [lookupEntry] at h
  | cons hd tl ih =>
    obtain ⟨k₀, e₀⟩ := hd
    by_cases hk : k₀ = p
    · simp [hk]
    · simp only [lookupEntry, hk, if_false] at h
      simpa using Or.inr (ih h)

theorem getStatus_cancelStep (s : Store) (k p : String) :
    (cancelStep s k).getStatus p =
      if p = k ∧ (s.getStatus k = some .pending ∨ s.getStatus k = some .running)
      then some .aborted else s.getStatus p := by
  unfold cancelStep
  by_cases hk : s.getStatus k = some .pending ∨ s.getStatus k = some .running
  · simp only [hk, if_true, getStatus_setStatus]
    by_cases hp : p = k <;> simp [hp, hk]
  · simp [hk]

theorem getStatus_cancelFold (ks : List String) (s : Store) (p : String) :
    (ks.foldl cancelStep s).getStatus p =
      if p ∈ ks ∧ (s.getStatus p = some .pending ∨ s.getStatus p = some .running)
      then some .aborted else s.getStatus p := by
  induction ks generalizing s with
  | nil => simp
  | cons k ks ih =>
    simp only [List.foldl_cons]
    rw [ih, getStatus_cancelStep]
    by_cases hpk : p = k
    · subst hpk
      by_cases hpr : s.getStatus p = some .pending ∨ s.getStatus p = some .running
      · simp [hpr]
      · simp [hpr]
    · simp only [hpk, false_and, if_false]
      by_cases hmem : p ∈ ks
      · simp [hmem, List.mem_cons, hpk]
      · simp [hmem, List.mem_cons, hpk]

/-- C4.  After the cancel operation's store sweep, no dotted path is
`pending` or `running`, and every entry that was `pending` or `running`
has been transitioned to `aborted` (the source sweeps every known key, so
in particular those under the run's root). -/
theorem claim4_cancel (s : Store) (p : String) :
    ((cancelMark s).getStatus p ≠ some .pending
      ∧ (cancelMark s).getStatus p ≠ some .running)
    ∧ (s.getStatus p = some .pending ∨ s.getStatus p = some .running →
        (cancelMark s).getStatus p = some .aborted) := by
  have hchar := getStatus_cancelFold s.allKeys s p
  simp only [cancelMark]
  constructor
  · constructor
    · intro hcon
      rw [hchar] at hcon
      by_cases hc : p ∈ s.allKeys ∧
          (s.getStatus p = some .pending ∨ s.getStatus p = some .running)
      · rw [if_pos hc] at hcon; exact Status.noConfusion (Option.some.inj hcon)
      · rw [if_neg hc] at hcon
        exact hc ⟨getStatus_some_mem_allKeys s p .pending hcon, Or.inl hcon⟩
    · intro hcon
      rw [hchar] at hcon
      by_cases hc : p ∈ s.allKeys ∧
          (s.getStatus p = some .pending ∨ s.getStatus p = some .running)
      · rw [if_pos hc] at hcon; exact Status.noConfusion (Option.some.inj hcon)
      · rw [if_neg hc] at hcon
        exact hc ⟨getStatus_some_mem_allKeys s p .running hcon, Or.inr hcon⟩
  · intro hpr
    have hmem : p ∈ s.allKeys := by
      rcases hpr with h | h
      · exact getStatus_some_mem_allKeys s p .pending h
      · exact getStatus_some_mem_allKeys s p .running h
    rw [hchar, if_pos ⟨hmem, hpr⟩]

/-- Witness for C4 at a concrete store. -/
theorem claim4_cancel_witness :
    ((Store.empty.setStatus "a.b" .running).getStatus "a.b" = some .pending
        ∨ (Store.empty.setStatus "a.b" .running).getStatus "a.b" = some .running)
    ∧ (cancelMark (Store.empty.setStatus "a.b" .running)).getStatus "a.b"
        = some .aborted := by
  refine ⟨Or.inr (by decide), ?_⟩
  exact (claim4_cancel (Store.empty.setStatus "a.b" .running) "a.b").2
    (Or.inr (by decide))

/-! ### Finalization (C5) -/

theorem finalTarget_ne_pending (cfg : RunConfig) (success : Bool) :
    finalTarget cfg success ≠ .pending := by
  unfold finalTarget
  split
  · exact fun h => Status.noConfusion h
  · split
    · exact fun h => Status.noConfusion h
    · exact fun h => Status.noConfusion h

mutual
theorem getStatus_finalizeNode (cfg : RunConfig) (success : Bool) :
    ∀ (n : TestNode) (s : Store) (p : String),
      (finalizeNode cfg success n s).getStatus p =
        if p ∈ subtreePaths n ∧ s.getStatus p = some .pending
        then some (finalTarget cfg success) else s.getStatus p
  | .mk name t dp c, s, p => by
    have hf := getStatus_finalizeForest cfg success c s p
    cases dp with
    | none =>
      simp only [finalizeNode, subtreePaths, List.nil_append]
      exact hf
    | some d =>
      by_cases hd : d = ""
      · simp only [finalizeNode, subtreePaths, if_pos hd, List.nil_append]
        exact hf
      · have hfd := getStatus_finalizeForest cfg success c s d
        simp only [finalizeNode, subtreePaths, if_neg hd,
          List.singleton_append, List.mem_cons]
        by_cases hpend :
            (finalizeForest cfg success c s).getStatus d = some .pending
        · rw [if_pos hpend, getStatus_setStatus]
          have hsd : s.getStatus d = some .pending := by
            by_cases hcond : d ∈ forestPaths c ∧ s.getStatus d = some .pending
            · exact hcond.2
            · rw [hfd, if_neg hcond] at hpend
              exact hpend
          by_cases hpd : p = d
          · subst hpd
            simp [hsd]
          · rw [if_neg hpd, hf]
            by_cases hcond : p ∈ forestPaths c ∧ s.getStatus p = some .pending
            · rw [if_pos hcond, if_pos ⟨Or.inr hcond.1, hcond.2⟩]
            · rw [if_neg hcond, if_neg ?hng1]
              case hng1 =>
                rintro ⟨hor, hsp⟩
                rcases hor with h | h
                · exact hpd h
                · exact hcond ⟨h, hsp⟩
        · rw [if_neg hpend]
          by_cases hpd : p = d
          · subst hpd
            rw [hf]
            by_cases hcond : p ∈ forestPaths c ∧ s.getStatus p = some .pending
            · rw [if_pos hcond, if_pos ⟨Or.inr hcond.1, hcond.2⟩]
            · rw [if_neg hcond]
              have hsp : ¬s.getStatus p = some .pending := by
                intro hcon
                rw [hfd, if_neg hcond] at hpend
                exact hpend hcon
              rw [if_neg (fun hx => hsp hx.2)]
          · rw [hf]
            by_cases hcond : p ∈ forestPaths c ∧ s.getStatus p = some .pending
            · rw [if_pos hcond, if_pos ⟨Or.inr hcond.1, hcond.2⟩]
            · rw [if_neg hcond, if_neg ?hng2]
              case hng2 =>
                rintro ⟨hor, hsp⟩
                rcases hor with h | h
                · exact hpd h
                · exact hcond ⟨h, hsp⟩

theorem getStatus_finalizeForest (cfg : RunConfig) (success : Bool) :
    ∀ (c : Forest) (s : Store) (p : String),
      (finalizeForest cfg success c s).getStatus p =
        if p ∈ forestPaths c ∧ s.getStatus p = some .pending
        then some (finalTarget cfg success) else s.getStatus p
  | .nil, s, p => by simp [finalizeForest, forestPaths]
  | .cons n rest, s, p => by
    have hn := getStatus_finalizeNode cfg success n s p
    have hr := getStatus_finalizeForest cfg success rest
      (finalizeNode cfg success n s) p
    simp only [finalizeForest, forestPaths, List.mem_append]
    rw [hr, hn]
    by_cases hA : p ∈ subtreePaths n ∧ s.getStatus p = some .pending
    · have hT : ¬(some (finalTarget cfg success) = some .pending) := by
        intro hcon
        exact finalTarget_ne_pending cfg success (Option.some.inj hcon)
      rw [if_pos hA, if_neg (fun hx => hT hx.2),
        if_pos ⟨Or.inl hA.1, hA.2⟩]
    · rw [if_neg hA]
      by_cases hsp : s.getStatus p = some .pending
      · have hnp : ¬p ∈ subtreePaths n := fun hx => hA ⟨hx, hsp⟩
        by_cases hmem : p ∈ forestPaths rest
        · rw [if_pos ⟨hmem, hsp⟩, if_pos ⟨Or.inr hmem, hsp⟩]
        · rw [if_neg (fun hx => hmem hx.1), if_neg ?hng3]
          case hng3 =>
            rintro ⟨hor, _⟩
            rcases hor with h | h
            · exact hnp h
            · exact hmem h
      · rw [if_neg (fun hx => hsp hx.2), if_neg (fun hx => hsp hx.2)]
end

/-- C5 (amended).  At process exit, every node of the run's subtree whose
entry is still `pending` is finalized: `passed` on a zero exit code; on a
non-zero exit code `skipped` when the fail-fast check holds and `unknown`
otherwise — where the fail-fast check scans the active profile's argument
list, or `testArguments` only when the active profile is undefined (not
the combined run argument list, see the counterexample).  Entries in any
other status are left unchanged. -/
theorem claim5_finalize (cfg : RunConfig) (success : Bool) (n : TestNode)
    (s : Store) (p : String) :
    (p ∈ subtreePaths n → s.getStatus p = some .pending →
      (finalizeNode cfg success n s).getStatus p =
        some (if success then .passed
              else if isFailFast cfg then .skipped else .unknown))
    ∧ (s.getStatus p ≠ some .pending →
        (finalizeNode cfg success n s).getStatus p = s.getStatus p) := by
  have hchar := getStatus_finalizeNode cfg success n s p
  constructor
  · intro hmem hpend
    rw [hchar, if_pos ⟨hmem, hpend⟩]
    rfl
  · intro hnp
    rw [hchar, if_neg (fun hx => hnp hx.2)]

/-- Witness for C5: a run with `--failfast` in the active profile and a
failing exit finalizes a pending leaf to `skipped`; a non-pending entry is
untouched. -/
theorem claim5_finalize_witness :
    ("app.tests.T.test_a" ∈ subtreePaths c5Node
      ∧ c5Store.getStatus "app.tests.T.test_a" = some .pending
      ∧ (finalizeNode ⟨"Default", [("Default", ["--failfast"])], []⟩ false
          c5Node c5Store).getStatus "app.tests.T.test_a" = some .skipped)
    ∧ (c5Store.getStatus "x" ≠ some .pending
      ∧ (finalizeNode ⟨"Default", [("Default", ["--failfast"])], []⟩ false
          c5Node c5Store).getStatus "x" = c5Store.getStatus "x") := by
  refine ⟨⟨by decide, by decide, ?_⟩, ⟨by decide, ?_⟩⟩
  · have h := (claim5_finalize ⟨"Default", [("Default", ["--failfast"])], []⟩
      false c5Node c5Store "app.tests.T.test_a").1 (by decide) (by decide)
    rw [h]
    decide
  · exact (claim5_finalize ⟨"Default", [("Default", ["--failfast"])], []⟩
      false c5Node c5Store "x").2 (by decide)

/-- C5 (counterexample).  The claim keys fail-fast to "the active run
arguments include `--failfast`".  With an existing (empty) active profile
and `--failfast` in `testArguments`, the run's argument list does include
`--failfast`, yet finalization of a pending node under a failing exit
yields `unknown`, not `skipped`: `finalizeNodeStatus` reads
`profiles[activeProfile] || testArguments`, ignoring `testArguments`
whenever the profile exists. -/
theorem claim5_counterexample :
    "--failfast" ∈ rawTestArgs cfgFF
    ∧ "--failfast" ∈ testArgsFor cfgFF
    ∧ (finalizeNode cfgFF false c5Node c5Store).getStatus
        "app.tests.T.test_a" = some .unknown := by
  refine ⟨by decide, by decide, by decide⟩

/-! ### Pending reset before a terminal run (C10) -/

mutual
theorem getStatus_setPendingRec :
    ∀ (n : TestNode) (s : Store) (p : String),
      (setPendingRec n s).getStatus p =
        if p ∈ subtreePaths n then some .pending else s.getStatus p
  | .mk name t dp c, s, p => by
    cases dp with
    | none =>
      simp only [setPendingRec, subtreePaths, List.nil_append]
      exact getStatus_setPendingForest c s p
    | some d =>
      by_cases hd : d = ""
      · simp only [setPendingRec, subtreePaths, if_pos hd, List.nil_append]
        exact getStatus_setPendingForest c s p
      · have hf := getStatus_setPendingForest c (s.setStatus d .pending) p
        simp only [setPendingRec, subtreePaths, if_neg hd,
          List.singleton_append, List.mem_cons]
        rw [hf, getStatus_setStatus]
        by_cases hmem : p ∈ forestPaths c
        · simp [hmem]
        · by_cases hpd : p = d
          · simp [hmem, hpd]
          · simp [hmem, hpd]

theorem getStatus_setPendingForest :
    ∀ (c : Forest) (s : Store) (p : String),
      (setPendingForest c s).getStatus p =
        if p ∈ forestPaths c then some .pending else s.getStatus p
  | .nil, s, p => by simp [setPendingForest, forestPaths]
  | .cons n rest, s, p => by
    have hn := getStatus_setPendingRec n s p
    have hr := getStatus_setPendingForest rest (setPendingRec n s) p
    simp only [setPendingForest, forestPaths]
    rw [hr, hn]
    by_cases hmem : p ∈ forestPaths rest
    · simp [hmem, List.mem_append]
    · by_cases hsn : p ∈ subtreePaths n
      · simp [hmem, hsn, List.mem_append]
      · simp [hmem, hsn, List.mem_append]
end

/-- C10.  `runInTerminal`'s `setPendingRecursive` (executed on the
selected node before the subprocess command is issued) sets every truthy
dotted path of the node's subtree to `pending` and leaves every other
dotted path's entry unchanged. -/
theorem claim10_pending_reset (n : TestNode) (s : Store) (p : String) :
    (p ∈ subtreePaths n → (setPendingRec n s).getStatus p = some .pending)
    ∧ (p ∉ subtreePaths n →
        (setPendingRec n s).getStatus p = s.getStatus p) := by
  have hchar := getStatus_setPendingRec n s p
  constructor
  · intro hmem
    rw [hchar, if_pos hmem]
  · intro hmem
    rw [hchar, if_neg hmem]

/-- Witness for C10 on a two-level tree and a store with an outside
entry. -/
theorem claim10_pending_reset_witness :
    ("pkg.T.test_a" ∈ subtreePaths
        (TestNode.mk "T" .cls (some "pkg.T")
          (.cons (.mk "test_a" .method (some "pkg.T.test_a") .nil) .nil))
      ∧ (setPendingRec
          (TestNode.mk "T" .cls (some "pkg.T")
            (.cons (.mk "test_a" .method (some "pkg.T.test_a") .nil) .nil))
          (Store.empty.setStatus "other.path" .failed)).getStatus
          "pkg.T.test_a" = some .pending)
    ∧ ("other.path" ∉ subtreePaths
        (TestNode.mk "T" .cls (some "pkg.T")
          (.cons (.mk "test_a" .method (some "pkg.T.test_a") .nil) .nil))
      ∧ (setPendingRec
          (TestNode.mk "T" .cls (some "pkg.T")
            (.cons (.mk "test_a" .method (some "pkg.T.test_a") .nil) .nil))
          (Store.empty.setStatus "other.path" .failed)).getStatus
          "other.path" = some .failed) := by
  constructor
  · refine ⟨by decide, ?_⟩
    exact (claim10_pending_reset _ _ _).1 (by decide)
  · refine ⟨by decide, ?_⟩
    rw [(claim10_pending_reset
      (TestNode.mk "T" .cls (some "pkg.T")
        (.cons (.mk "test_a" .method (some "pkg.T.test_a") .nil) .nil))
      (Store.empty.setStatus "other.path" .failed) "other.path").2 (by decide)]
    decide

/-! ### Status aggregation (C2) -/

mutual
theorem computeStatus_eq_specDerived (store : Store) :
    ∀ n : TestNode, computeStatus store n = specDerived store n
  | .mk name t dp c => by
    cases c with
    | nil => simp [computeStatus, specDerived]
    | cons n0 rest =>
      have hrun := childStatuses_eq_specAny store (.cons n0 rest) .running
      have hpend := childStatuses_eq_specAny store (.cons n0 rest) .pending
      have hfail := childStatuses_eq_specAny store (.cons n0 rest) .failed
      have hpass := childStatuses_eq_specAny store (.cons n0 rest) .passed
      have habort := childStatuses_eq_specAny store (.cons n0 rest) .aborted
      have hskip := childStatuses_eq_specAny store (.cons n0 rest) .skipped
      simp only [computeStatus, specDerived]
      rw [hrun, hpend, hfail, hpass, habort, hskip]
      cases specAnyChild store (Forest.cons n0 rest) .running <;>
        cases specAnyChild store (Forest.cons n0 rest) .pending <;>
        cases specAnyChild store (Forest.cons n0 rest) .failed <;>
        cases specAnyChild store (Forest.cons n0 rest) .passed <;>
        cases specAnyChild store (Forest.cons n0 rest) .aborted <;>
        cases specAnyChild store (Forest.cons n0 rest) .skipped <;>
        rcases directStatus store dp with _ | d <;>
        simp

theorem childStatuses_eq_specAny (store : Store) :
    ∀ (c : Forest) (st : Status),
      (childStatuses store c).contains st = specAnyChild store c st
  | .nil, st => by simp [childStatuses, specAnyChild]
  | .cons n rest, st => by
    have h1 := computeStatus_eq_specDerived store n
    have h2 := childStatuses_eq_specAny store rest st
    simp only [childStatuses, specAnyChild, List.contains_cons, h1, h2]
    by_cases hq : st = specDerived store n
    · simp [hq]
    · simp [beq_false_of_ne hq, beq_false_of_ne (Ne.symm hq)]
end

/-- C2.  For every Status Store and every node, the derived display
status computed by `TestItem.computeStatus` equals the claim's precedence
rule (`running` > `pending` > own-entry-`failed` > any-child-`failed` >
`passed` > `aborted` > `skipped` > own entry > `unknown`; a leaf derives
its own entry or `unknown`). -/
theorem claim2_aggregation (store : Store) (n : TestNode) :
    computeStatus store n = specDerived store n :=
  computeStatus_eq_specDerived store n

/-! ### Leaf summary fallback (C9) -/

/-- C9 (counterexample).  The claim says a leaf whose status was already
set by its own per-test line keeps that per-test result.  On
`c9Text` the per-line pass alone stores `skipped` for the leaf, but the
full batch ends with the summary scan, which overwrites it to `passed`
because the text contains `OK`. -/
theorem claim9_counterexample :
    c9LineOnly.store.getStatus "pkg.T.test_x" = some .skipped
    ∧ c9Run.ps.store.getStatus "pkg.T.test_x" = some .passed := by
  refine ⟨by decide, by decide⟩

/-- C9 (amended).  When the run's observed node is a leaf with a truthy
dotted path, each `parseResults` batch whose cleaned text contains
`FAILED (failures=` or `FAILED (errors=` ends by setting the leaf
`failed`, and otherwise a batch containing `OK` ends by setting it
`passed` — unconditionally, overwriting any per-test result from the same
batch rather than acting only as a fallback for leaves without per-test
lines. -/
theorem claim9_summary_override (node : TestNode) (d : String)
    (output : List Char) (now : Nat) (ps : PState)
    (hleaf : TestNode.children node = .nil)
    (hdp : TestNode.dottedPath node = some d) (hne : d ≠ "") :
    (containsSub (stripAnsi output) "FAILED (failures=".data = true
        ∨ containsSub (stripAnsi output) "FAILED (errors=".data = true →
      (parseResults node output now ps).store.getStatus d = some .failed)
    ∧ (containsSub (stripAnsi output) "FAILED (failures=".data = false →
        containsSub (stripAnsi output) "FAILED (errors=".data = false →
        containsSub (stripAnsi output) "OK".data = true →
      (parseResults node output now ps).store.getStatus d = some .passed) := by
  obtain ⟨nm, t, dp, c⟩ := node
  simp only [TestNode.children] at hleaf
  simp only [TestNode.dottedPath] at hdp
  subst hleaf
  subst hdp
  constructor
  · intro hsum
    rcases hsum with h | h <;>
      simp [parseResults, TestNode.children, TestNode.dottedPath, h, hne,
        getStatus_setStatus]
  · intro h1 h2 h3
    simp [parseResults, TestNode.children, TestNode.dottedPath, h1, h2, h3,
      hne, getStatus_setStatus]

/-- Witness for C9 at a concrete leaf and batch. -/
theorem claim9_summary_override_witness :
    (TestNode.children (.mk "w" .method (some "w.t") .nil) = .nil
      ∧ TestNode.dottedPath (.mk "w" .method (some "w.t") .nil) = some "w.t"
      ∧ containsSub (stripAnsi "FAILED (failures=1)\n".data)
          "FAILED (failures=".data = true)
    ∧ (parseResults (.mk "w" .method (some "w.t") .nil)
        "FAILED (failures=1)\n".data 0 initPS).store.getStatus "w.t"
      = some .failed := by
  refine ⟨⟨rfl, rfl, by decide⟩, ?_⟩
  exact (claim9_summary_override (.mk "w" .method (some "w.t") .nil) "w.t"
    "FAILED (failures=1)\n".data 0 initPS rfl rfl (by decide)).1
    (Or.inl (by decide))

/-! ### Method capture during per-file parsing (C8) -/

theorem head_of_isPrefix (a : Char) (xs t : List Char)
    (h : List.isPrefixOf (a :: xs) t = true) : ∃ r, t = a :: r := by
  cases t with
  | nil => simp [List.isPrefixOf] at h
  | cons c r =>
    simp only [List.isPrefixOf, Bool.and_eq_true, beq_iff_eq] at h
    exact ⟨r, by rw [h.1]⟩

/-- C8 (counterexample).  The claim includes a top-level (column-zero)
`def`: the method regex demands at least one leading whitespace character
(`^\s+`), so `def test_foo` at column zero is never captured — the
file yields no node at all — while the same line indented is captured. -/
theorem claim8_counterexample :
    parseFile "test_".data ["tests", "sample.py"]
        "def test_foo():\n    pass\n".data = none
    ∧ matchMethodDecl "test_".data "def test_foo():".data = none
    ∧ matchMethodDecl "test_".data "    def test_foo():".data
      = some "test_foo".data := by
  refine ⟨?_, by decide, by decide⟩
  rfl

/-- C8 (amended).  A line declaring a function with the configured prefix
becomes a method node exactly when it begins with at least one whitespace
character (the anchored `^\s+` of the method pattern): it is appended to
the open class node when one is open, and otherwise attached directly to
the file node; a line not beginning with whitespace — in particular a
column-zero `def` — never matches the method pattern. -/
theorem claim8_method_attach (pfx : List Char) (fd : String) (st : PFState)
    (line m : List Char)
    (hguard : List.isPrefixOf "def ".data (line.dropWhile isJsSpace) = true
      ∨ List.isPrefixOf "async def ".data (line.dropWhile isJsSpace) = true)
    (hm : matchMethodDecl pfx line = some m) :
    ((∀ c, st.cur = some c →
        parseFileStep pfx fd st line =
          { st with cur := some (addMethodToClass c (String.mk m)) })
      ∧ (st.cur = none →
        parseFileStep pfx fd st line =
          { st with done := st.done.snoc (.mk (String.mk m) .method
              (some (fd ++ "." ++ String.mk m)) .nil) }))
    ∧ (∀ c0 cs, isJsSpace c0 = false →
        matchMethodDecl pfx (c0 :: cs) = none) := by
  have hclass :
      List.isPrefixOf "class ".data (line.dropWhile isJsSpace) = false := by
    cases hcl : List.isPrefixOf "class ".data (line.dropWhile isJsSpace) with
    | false => rfl
    | true =>
      exfalso
      obtain ⟨r, hr⟩ := head_of_isPrefix 'c' "lass ".data _ hcl
      rcases hguard with h | h
      · obtain ⟨r', hr'⟩ := head_of_isPrefix 'd' "ef ".data _ h
        rw [hr] at hr'
        exact absurd (List.cons.inj hr').1 (by decide)
      · obtain ⟨r', hr'⟩ := head_of_isPrefix 'a' "sync def ".data _ h
        rw [hr] at hr'
        exact absurd (List.cons.inj hr').1 (by decide)
  have hclassP :
      ¬(List.isPrefixOf "class ".data (line.dropWhile isJsSpace) = true) := by
    rw [hclass]
    exact Bool.false_ne_true
  have hguardB : (List.isPrefixOf "def ".data (line.dropWhile isJsSpace)
      || List.isPrefixOf "async def ".data (line.dropWhile isJsSpace))
        = true := by
    rcases hguard with h | h
    · rw [h, Bool.true_or]
    · rw [h, Bool.or_true]
  constructor
  · constructor
    · intro c hc
      simp only [parseFileStep, if_neg hclassP, if_pos hguardB, hm, hc]
    · intro hc
      simp only [parseFileStep, if_neg hclassP, if_pos hguardB, hm, hc]
  · intro c0 cs hc0
    simp [matchMethodDecl, List.takeWhile, hc0]

/-- Witness for C8: an indented prefix-named `def` under an open class is
appended to that class. -/
theorem claim8_method_attach_witness :
    (List.isPrefixOf "def ".data
        ("    def test_b(self):".data.dropWhile isJsSpace) = true
      ∧ matchMethodDecl "test_".data "    def test_b(self):".data
        = some "test_b".data)
    ∧ parseFileStep "test_".data "app.tests"
        ⟨.nil, some (.mk "TestA" .cls (some "app.tests.TestA") .nil)⟩
        "    def test_b(self):".data =
      ⟨.nil, some (addMethodToClass
        (.mk "TestA" .cls (some "app.tests.TestA") .nil)
        (String.mk "test_b".data))⟩ := by
  refine ⟨⟨by decide, by decide⟩, ?_⟩
  exact (claim8_method_attach "test_".data "app.tests"
    ⟨.nil, some (.mk "TestA" .cls (some "app.tests.TestA") .nil)⟩
    "    def test_b(self):".data "test_b".data (Or.inl (by decide))
    (by decide)).1.1
    (.mk "TestA" .cls (some "app.tests.TestA") .nil) rfl

/-! ### dottedPath uniqueness in discovered forests (C6) -/

theorem folderNames_append : ∀ f g : Forest,
    folderNames (Forest.append f g) = folderNames f ++ folderNames g
  | .nil, g => by simp [Forest.append, folderNames]
  | .cons n rest, g => by
    simp [Forest.append, folderNames, folderNames_append rest g]

theorem foldersOkEach_append : ∀ f g : Forest,
    foldersOkEach (Forest.append f g) = (foldersOkEach f && foldersOkEach g)
  | .nil, g => by simp [Forest.append, foldersOkEach]
  | .cons n rest, g => by
    simp [Forest.append, foldersOkEach, foldersOkEach_append rest g,
      Bool.and_assoc]

theorem noFoldersEach_append : ∀ f g : Forest,
    noFoldersEach (Forest.append f g) = (noFoldersEach f && noFoldersEach g)
  | .nil, g => by simp [Forest.append, noFoldersEach]
  | .cons n rest, g => by
    simp [Forest.append, noFoldersEach, noFoldersEach_append rest g,
      Bool.and_assoc]

theorem distinctNames_snoc : ∀ (xs : List String) (x : String),
    distinctNames xs = true → x ∉ xs → distinctNames (xs ++ [x]) = true
  | [], x => by intro _ _; simp [distinctNames]
  | y :: ys, x => by
    intro hdist hmem
    simp only [distinctNames, Bool.and_eq_true, Bool.not_eq_true',
      decide_eq_false_iff_not] at hdist
    simp only [List.cons_append, distinctNames, Bool.and_eq_true,
      Bool.not_eq_true', decide_eq_false_iff_not]
    refine ⟨?_, distinctNames_snoc ys x hdist.2
      (fun h => hmem (List.mem_cons_of_mem y h))⟩
    intro hy
    rcases List.mem_append.mp hy with h | h
    · exact hdist.1 h
    · simp only [List.mem_singleton] at h
      exact hmem (h ▸ List.mem_cons_self y ys)

theorem findFolderChildren_none_not_mem : ∀ (f : Forest) (p : String),
    findFolderChildren f p = none → p ∉ folderNames f
  | .nil, p => by intro _; simp [folderNames]
  | .cons n rest, p => by
    intro h
    simp only [findFolderChildren] at h
    by_cases hc : (n.name == p && n.ntype == NodeType.folder) = true
    · rw [if_pos hc] at h
      exact Option.noConfusion h
    · rw [if_neg hc] at h
      simp only [folderNames, List.mem_append]
      rintro (hmem | hmem)
      · by_cases hty : (n.ntype == NodeType.folder) = true
        · rw [if_pos hty] at hmem
          simp only [List.mem_singleton] at hmem
          exact hc (by simp [hmem, hty])
        · rw [if_neg hty] at hmem
          exact List.not_mem_nil p hmem
      · exact findFolderChildren_none_not_mem rest p h hmem

theorem findFolderChildren_some_ok : ∀ (f : Forest) (p : String)
    (kids : Forest), findFolderChildren f p = some kids →
    foldersOkEach f = true → foldersOkF kids = true
  | .nil, p, kids => fun h _ => Option.noConfusion h
  | .cons n rest, p, kids => by
    intro h hok
    simp only [findFolderChildren] at h
    simp only [foldersOkEach, Bool.and_eq_true] at hok
    by_cases hc : (n.name == p && n.ntype == NodeType.folder) = true
    · rw [if_pos hc] at h
      obtain ⟨nm, t, dp, c⟩ := n
      simp only [TestNode.children] at h
      cases h
      have hn := hok.1
      simp only [foldersOkN, Bool.and_eq_true] at hn
      simp [foldersOkF, hn.1, hn.2]
    · rw [if_neg hc] at h
      exact findFolderChildren_some_ok rest p kids h hok.2

theorem replaceFolderChildren_names : ∀ (f : Forest) (p : String)
    (kids : Forest),
    folderNames (replaceFolderChildren f p kids) = folderNames f
  | .nil, p, kids => by simp [replaceFolderChildren]
  | .cons n rest, p, kids => by
    simp only [replaceFolderChildren]
    by_cases hc : (n.name == p && n.ntype == NodeType.folder) = true
    · rw [if_pos hc]
      obtain ⟨nm, t, dp, c⟩ := n
      simp [folderNames, TestNode.name, TestNode.ntype]
    · rw [if_neg hc]
      simp [folderNames, replaceFolderChildren_names rest p kids]

theorem replaceFolderChildren_ok : ∀ (f : Forest) (p : String)
    (kids : Forest), foldersOkEach f = true → foldersOkF kids = true →
    foldersOkEach (replaceFolderChildren f p kids) = true
  | .nil, p, kids => by intro _ _; simp [replaceFolderChildren, foldersOkEach]
  | .cons n rest, p, kids => by
    intro hok hkids
    simp only [foldersOkEach, Bool.and_eq_true] at hok
    simp only [replaceFolderChildren]
    by_cases hc : (n.name == p && n.ntype == NodeType.folder) = true
    · rw [if_pos hc]
      simp only [foldersOkEach, Bool.and_eq_true]
      refine ⟨?_, hok.2⟩
      obtain ⟨nm, t, dp, c⟩ := n
      simp only [foldersOkF, Bool.and_eq_true] at hkids
      simp [foldersOkN, hkids.1, hkids.2]
    · rw [if_neg hc]
      simp only [foldersOkEach, Bool.and_eq_true]
      exact ⟨hok.1, replaceFolderChildren_ok rest p kids hok.2 hkids⟩

theorem insertPath_ok :
    ∀ (dirs : List String) (level : Forest) (parts : List String)
      (fn : TestNode),
      foldersOkF level = true → foldersOkN fn = true →
      (TestNode.ntype fn == NodeType.folder) = false →
      foldersOkF (insertPath level dirs parts fn) = true
  | [], level, parts, fn => by
    intro hlev hfn hty
    simp only [foldersOkF, Bool.and_eq_true] at hlev
    have hfn0 : folderNames (Forest.cons fn Forest.nil) = [] := by
      obtain ⟨nm, t, dp, c⟩ := fn
      simp only [TestNode.ntype] at hty
      simp only [beq_eq_false_iff_ne, ne_eq] at hty
      simp [folderNames, TestNode.ntype, hty]
    simp only [insertPath, foldersOkF, Forest.snoc, folderNames_append,
      foldersOkEach_append, hfn0, List.append_nil, Bool.and_eq_true]
    exact ⟨hlev.1, hlev.2, by simp [foldersOkEach, hfn]⟩
  | part :: rest, level, parts, fn => by
    intro hlev hfn hty
    simp only [insertPath]
    simp only [foldersOkF, Bool.and_eq_true] at hlev
    cases hfind : findFolderChildren level part with
    | some kids =>
      have hkids := findFolderChildren_some_ok level part kids hfind hlev.2
      have hnew := insertPath_ok rest kids (parts ++ [part]) fn hkids hfn hty
      simp only [foldersOkF, Bool.and_eq_true]
      constructor
      · rw [replaceFolderChildren_names]
        exact hlev.1
      · exact replaceFolderChildren_ok level part _ hlev.2 hnew
    | none =>
      have hnotmem := findFolderChildren_none_not_mem level part hfind
      have hnew := insertPath_ok rest .nil (parts ++ [part]) fn
        (by simp [foldersOkF, folderNames, distinctNames, foldersOkEach])
        hfn hty
      have hnames : folderNames (Forest.cons (TestNode.mk part .folder
          (some (String.intercalate "." (parts ++ [part])))
          (insertPath .nil rest (parts ++ [part]) fn)) Forest.nil)
            = [part] := by
        simp [folderNames, TestNode.ntype, TestNode.name]
      simp only [foldersOkF, Forest.snoc, folderNames_append,
        foldersOkEach_append, hnames, Bool.and_eq_true]
      simp only [foldersOkF, Bool.and_eq_true] at hnew
      refine ⟨distinctNames_snoc _ _ hlev.1 hnotmem, hlev.2, ?_⟩
      simp [foldersOkEach, foldersOkN, TestNode.children, hnew.1, hnew.2]

theorem folderNames_eq_nil_of_noFolders : ∀ f : Forest,
    noFoldersEach f = true → folderNames f = []
  | .nil => fun _ => rfl
  | .cons n rest => by
    intro h
    simp only [noFoldersEach, Bool.and_eq_true] at h
    obtain ⟨nm, t, dp, c⟩ := n
    have hty : (t == NodeType.folder) = false := by
      have h1 := h.1
      simp only [noFoldersN, Bool.and_eq_true, Bool.not_eq_true'] at h1
      exact h1.1
    simp only [folderNames, TestNode.ntype, hty, Bool.false_eq_true,
      if_false, List.nil_append]
    exact folderNames_eq_nil_of_noFolders rest h.2

mutual
theorem foldersOkN_of_noFoldersN :
    ∀ n : TestNode, noFoldersN n = true → foldersOkN n = true
  | .mk nm t dp c => by
    intro h
    simp only [noFoldersN, Bool.and_eq_true] at h
    simp only [foldersOkN, Bool.and_eq_true]
    constructor
    · rw [folderNames_eq_nil_of_noFolders c h.2]
      rfl
    · exact foldersOkEach_of_noFoldersEach c h.2

theorem foldersOkEach_of_noFoldersEach :
    ∀ f : Forest, noFoldersEach f = true → foldersOkEach f = true
  | .nil => fun _ => rfl
  | .cons n rest => by
    intro h
    simp only [noFoldersEach, Bool.and_eq_true] at h
    simp only [foldersOkEach, Bool.and_eq_true]
    exact ⟨foldersOkN_of_noFoldersN n h.1,
      foldersOkEach_of_noFoldersEach rest h.2⟩
end

theorem noFoldersN_addMethod (c : TestNode) (m : String)
    (h : noFoldersN c = true) : noFoldersN (addMethodToClass c m) = true := by
  obtain ⟨nm, t, dp, kids⟩ := c
  simp only [noFoldersN, Bool.and_eq_true] at h
  simp only [addMethodToClass, noFoldersN, Forest.snoc, noFoldersEach_append,
    Bool.and_eq_true]
  exact ⟨h.1, h.2, by simp [noFoldersEach, noFoldersN]⟩

theorem flushCur_step_noFolders (pfx : List Char) (fd : String)
    (st : PFState) (line : List Char)
    (h : noFoldersEach (flushCur st) = true) :
    noFoldersEach (flushCur (parseFileStep pfx fd st line)) = true := by
  simp only [parseFileStep]
  cases hcl : (if List.isPrefixOf "class ".data (line.dropWhile isJsSpace)
      then matchClassDecl line else none) with
  | some cname =>
    by_cases ht : startsWithTest cname = true
    · simp only [ht, if_pos]
      simp only [flushCur, Forest.snoc, noFoldersEach_append,
        Bool.and_eq_true]
      refine ⟨h, ?_⟩
      simp [noFoldersEach, noFoldersN]
    · simp only [Bool.not_eq_true] at ht
      simp only [ht, Bool.false_eq_true, if_false]
      exact h
  | none =>
    by_cases hguard : (List.isPrefixOf "def ".data (line.dropWhile isJsSpace)
        || List.isPrefixOf "async def ".data (line.dropWhile isJsSpace))
          = true
    · rw [if_pos hguard]
      cases hm : matchMethodDecl pfx line with
      | some mname =>
        cases hcur : st.cur with
        | some c =>
          simp only [flushCur, hcur] at h
          simp only [flushCur, Forest.snoc, noFoldersEach_append,
            noFoldersEach, Bool.and_true, Bool.and_eq_true] at h ⊢
          exact ⟨h.1, noFoldersN_addMethod c _ h.2⟩
        | none =>
          simp only [flushCur, hcur] at h
          simp only [flushCur, Forest.snoc, noFoldersEach_append,
            noFoldersEach, Bool.and_true, Bool.and_eq_true]
          exact ⟨h, by simp [noFoldersN, noFoldersEach]⟩
      | none => exact h
    · rw [if_neg (by simpa using hguard)]
      exact h

theorem foldl_step_noFolders (pfx : List Char) (fd : String) :
    ∀ (lines : List (List Char)) (st : PFState),
      noFoldersEach (flushCur st) = true →
      noFoldersEach
        (flushCur (lines.foldl (parseFileStep pfx fd) st)) = true
  | [], st => fun h => h
  | line :: rest, st => fun h => by
    simp only [List.foldl_cons]
    exact foldl_step_noFolders pfx fd rest _
      (flushCur_step_noFolders pfx fd st line h)

theorem parseFile_noFolders (pfx : List Char) (parts : List String)
    (content : List Char) (n : TestNode)
    (h : parseFile pfx parts content = some n) :
    foldersOkN n = true ∧ (TestNode.ntype n == NodeType.folder) = false := by
  simp only [parseFile] at h
  by_cases hgate : (!(parts.any fun part => part == "tests" || part == "test")
      && !((parts.getLast?.getD "" == "test.py")
        || (parts.getLast?.getD "" == "tests.py"))) = true
  · rw [if_pos hgate] at h
    exact Option.noConfusion h
  · rw [if_neg hgate] at h
    have hnf : noFoldersEach (flushCur
        ((splitOnNl content).foldl
          (parseFileStep pfx (fileDotted parts)) ⟨.nil, none⟩)) = true :=
      foldl_step_noFolders pfx (fileDotted parts) (splitOnNl content)
        ⟨.nil, none⟩ (by simp [flushCur, noFoldersEach])
    cases hfc : flushCur ((splitOnNl content).foldl
        (parseFileStep pfx (fileDotted parts)) ⟨.nil, none⟩) with
    | nil =>
      rw [hfc] at h
      exact Option.noConfusion h
    | cons n0 rest =>
      rw [hfc] at h hnf
      cases h
      refine ⟨foldersOkN_of_noFoldersN _ ?_, by simp [TestNode.ntype]⟩
      simp only [noFoldersN, TestNode.ntype, Bool.and_eq_true,
        Bool.not_eq_true']
      exact ⟨by decide, hnf⟩

theorem structureTests_ok_aux :
    ∀ (files : List (List String × TestNode)) (roots : Forest),
      foldersOkF roots = true →
      (∀ pf ∈ files, foldersOkN pf.2 = true
        ∧ (TestNode.ntype pf.2 == NodeType.folder) = false) →
      foldersOkF (files.foldl
        (fun rs pf => insertPath rs pf.1.dropLast [] pf.2) roots) = true
  | [], roots => fun h _ => h
  | pf :: rest, roots => fun h hall => by
    simp only [List.foldl_cons]
    refine structureTests_ok_aux rest _ ?_ (fun q hq => hall q (by simp [hq]))
    exact insertPath_ok pf.1.dropLast roots [] pf.2 h
      (hall pf (by simp)).1 (hall pf (by simp)).2

/-- C6 (amended).  Full `dottedPath` uniqueness fails — a folder node for
directory `p` and a file node whose module path is also `p` can coexist
with equal dotted paths (see the counterexample) — but the deduplication
that `structureTests` does perform holds for every discovered forest,
full or incremental: within every sibling list, folder nodes carry
pairwise distinct names (a directory segment's folder node is reused,
never duplicated). -/
theorem claim6_sibling_folders (pfx : List Char)
    (files : List (List String × List Char)) :
    foldersOkF (discover pfx files) = true := by
  unfold discover structureTests
  refine structureTests_ok_aux _ .nil (by decide) ?_
  intro pf hpf
  simp only [List.mem_filterMap] at hpf
  obtain ⟨f, _, hparse⟩ := hpf
  simp only [Option.map_eq_some'] at hparse
  obtain ⟨n, hn, hpair⟩ := hparse
  subst hpair
  exact parseFile_noFolders pfx f.1 f.2 n hn

/-- C6 (counterexample).  Discovering `billing/tests.py` together with
`billing/tests/test_invoice.py` produces a forest containing two distinct
nodes — the file `billing/tests.py` and the folder `billing/tests` — with
the same `dottedPath` `billing.tests`. -/
theorem claim6_counterexample :
    ((forestNodes c6Forest).filter
        (fun n => TestNode.dottedPath n == some "billing.tests")).map nodeInfo
      = [("tests.py", .file, some "billing.tests"),
         ("tests", .folder, some "billing.tests")] := by
  decide

/-! ### Chunk-boundary invariance (C3)

The proof factors the chunked feeding into a closed form: after feeding
any chunk sequence, the parser state is `procText` of the complete-lines
part of the concatenated text, and the buffer is the remainder after the
last newline.  Both depend only on the concatenation, so any two
splittings of the same text agree — for a composite watched node, whose
batches have no summary step. -/

theorem procLine_nil (now : Nat) (st : PState) : procLine now st [] = st := by
  simp [procLine]

theorem splitOnNl_ne_nil : ∀ cs : List Char, splitOnNl cs ≠ []
  | [] => by simp [splitOnNl]
  | c :: rest => by
    simp only [splitOnNl]
    by_cases hc : c = '\n'
    · simp [hc]
    · rw [if_neg hc]
      cases hs : splitOnNl rest with
      | nil => simp
      | cons l ls => simp

theorem splitOnNl_newline_length : ∀ a : List Char,
    2 ≤ (splitOnNl (a ++ ['\n'])).length
  | [] => by simp [splitOnNl]
  | c :: a' => by
    simp only [List.cons_append, splitOnNl]
    by_cases hc : c = '\n'
    · rw [if_pos hc]
      have hp := List.length_pos.mpr (splitOnNl_ne_nil (a' ++ ['\n']))
      simp only [List.length_cons, List.append_eq]
      omega
    · rw [if_neg hc]
      cases hs : splitOnNl (a' ++ ['\n']) with
      | nil => exact absurd hs (splitOnNl_ne_nil _)
      | cons l ls =>
        have h2 := splitOnNl_newline_length a'
        rw [hs] at h2
        simpa using h2

theorem splitOnNl_append_newline : ∀ (a v : List Char),
    splitOnNl (a ++ '\n' :: v)
      = (splitOnNl (a ++ ['\n'])).dropLast ++ splitOnNl v
  | [], v => by simp [splitOnNl]
  | c :: a', v => by
    by_cases hc : c = '\n'
    · subst hc
      simp only [List.cons_append, splitOnNl, List.append_eq, if_pos rfl]
      rw [splitOnNl_append_newline a' v]
      cases hs : splitOnNl (a' ++ ['\n']) with
      | nil => exact absurd hs (splitOnNl_ne_nil _)
      | cons l ls =>
        have h2 := splitOnNl_newline_length a'
        rw [hs] at h2
        cases ls with
        | nil => simp at h2
        | cons l1 ls1 => simp
    · simp only [List.cons_append, splitOnNl, List.append_eq, if_neg hc]
      rw [splitOnNl_append_newline a' v]
      cases hs : splitOnNl (a' ++ ['\n']) with
      | nil => exact absurd hs (splitOnNl_ne_nil _)
      | cons l ls =>
        cases ls with
        | nil =>
          have h2 := splitOnNl_newline_length a'
          rw [hs] at h2
          simp at h2
        | cons l1 ls1 => simp

theorem splitOnNl_newline_getLast : ∀ a : List Char,
    (splitOnNl (a ++ ['\n'])).getLast? = some []
  | [] => by simp [splitOnNl]
  | c :: a' => by
    simp only [List.cons_append, splitOnNl]
    by_cases hc : c = '\n'
    · rw [if_pos hc]
      rw [List.getLast?_cons]
      have := splitOnNl_newline_getLast a'
      cases hs : splitOnNl (a' ++ ['\n']) with
      | nil => exact absurd hs (splitOnNl_ne_nil _)
      | cons l ls =>
        rw [hs] at this
        simpa [List.getLast?_cons] using this
    · rw [if_neg hc]
      have := splitOnNl_newline_getLast a'
      cases hs : splitOnNl (a' ++ ['\n']) with
      | nil => exact absurd hs (splitOnNl_ne_nil _)
      | cons l ls =>
        rw [hs] at this
        cases ls with
        | nil =>
          have h2 := splitOnNl_newline_length a'
          rw [hs] at h2
          simp at h2
        | cons l1 ls1 =>
          simpa [List.getLast?_cons] using this

theorem splitOnNl_newline_decomp (a : List Char) :
    splitOnNl (a ++ ['\n'])
      = (splitOnNl (a ++ ['\n'])).dropLast ++ [[]] := by
  have hne := splitOnNl_ne_nil (a ++ ['\n'])
  have hlast := splitOnNl_newline_getLast a
  rw [List.getLast?_eq_getLast _ hne] at hlast
  have := List.dropLast_append_getLast hne
  rw [Option.some.injEq] at hlast
  rw [hlast] at this
  exact this.symm

theorem foldl_procLine_newline (now : Nat) : ∀ (a v : List Char) (ps : PState),
    (splitOnNl (a ++ '\n' :: v)).foldl (procLine now) ps
      = (splitOnNl v).foldl (procLine now)
          ((splitOnNl (a ++ ['\n'])).foldl (procLine now) ps) := by
  intro a v ps
  rw [splitOnNl_append_newline a v, List.foldl_append]
  congr 1
  conv_rhs => rw [splitOnNl_newline_decomp a]
  rw [List.foldl_append]
  simp [procLine_nil]

theorem stripAnsiGo_newline : ∀ (x : List Char) (m : AnsiMode) (y : List Char),
    stripAnsiGo m (x ++ '\n' :: y)
      = stripAnsiGo m (x ++ ['\n']) ++ stripAnsiGo .normal y
  | [], m, y => by
    cases m with
    | normal => simp [stripAnsiGo]
    | sawEsc => simp [stripAnsiGo]
    | sawBracket ds => simp [stripAnsiGo]
  | c :: x', m, y => by
    cases m with
    | normal =>
      by_cases hc : c = '\x1b'
      · simp [stripAnsiGo, hc, stripAnsiGo_newline x' .sawEsc y]
      · simp [stripAnsiGo, hc, stripAnsiGo_newline x' .normal y]
    | sawEsc =>
      by_cases h1 : c = '['
      · simp [stripAnsiGo, h1, stripAnsiGo_newline x' (.sawBracket []) y]
      · by_cases h2 : c = '\x1b'
        · simp [stripAnsiGo, h1, h2, stripAnsiGo_newline x' .sawEsc y]
        · simp [stripAnsiGo, h1, h2, stripAnsiGo_newline x' .normal y]
    | sawBracket ds =>
      by_cases h1 : c.isDigit
      · simp [stripAnsiGo, h1, stripAnsiGo_newline x' (.sawBracket (ds ++ [c])) y]
      · by_cases h2 : c = 'm' ∧ ds ≠ []
        · simp [stripAnsiGo, h1, h2, stripAnsiGo_newline x' .normal y]
        · by_cases h3 : c = '\x1b'
          · simp [stripAnsiGo, h1, h2, h3, stripAnsiGo_newline x' .sawEsc y]
          · simp [stripAnsiGo, h1, h2, h3, stripAnsiGo_newline x' .normal y]

theorem stripAnsiGo_endsNl : ∀ (x : List Char) (m : AnsiMode),
    ∃ w, stripAnsiGo m (x ++ ['\n']) = w ++ ['\n']
  | [], m => by
    cases m with
    | normal => exact ⟨[], by simp [stripAnsiGo]⟩
    | sawEsc => exact ⟨['\x1b'], by simp [stripAnsiGo]⟩
    | sawBracket ds => exact ⟨'\x1b' :: '[' :: ds, by simp [stripAnsiGo]⟩
  | c :: x', m => by
    cases m with
    | normal =>
      by_cases hc : c = '\x1b'
      · obtain ⟨w, hw⟩ := stripAnsiGo_endsNl x' .sawEsc
        exact ⟨w, by simp [stripAnsiGo, hc, hw]⟩
      · obtain ⟨w, hw⟩ := stripAnsiGo_endsNl x' .normal
        exact ⟨c :: w, by simp [stripAnsiGo, hc, hw]⟩
    | sawEsc =>
      by_cases h1 : c = '['
      · obtain ⟨w, hw⟩ := stripAnsiGo_endsNl x' (.sawBracket [])
        exact ⟨w, by simp [stripAnsiGo, h1, hw]⟩
      · by_cases h2 : c = '\x1b'
        · obtain ⟨w, hw⟩ := stripAnsiGo_endsNl x' .sawEsc
          exact ⟨'\x1b' :: w, by simp [stripAnsiGo, h1, h2, hw]⟩
        · obtain ⟨w, hw⟩ := stripAnsiGo_endsNl x' .normal
          exact ⟨'\x1b' :: c :: w, by simp [stripAnsiGo, h1, h2, hw]⟩
    | sawBracket ds =>
      by_cases h1 : c.isDigit
      · obtain ⟨w, hw⟩ := stripAnsiGo_endsNl x' (.sawBracket (ds ++ [c]))
        exact ⟨w, by simp [stripAnsiGo, h1, hw]⟩
      · by_cases h2 : c = 'm' ∧ ds ≠ []
        · obtain ⟨w, hw⟩ := stripAnsiGo_endsNl x' .normal
          exact ⟨w, by simp [stripAnsiGo, h1, h2, hw]⟩
        · by_cases h3 : c = '\x1b'
          · obtain ⟨w, hw⟩ := stripAnsiGo_endsNl x' .sawEsc
            exact ⟨('\x1b' :: '[' :: ds) ++ w,
              by simp [stripAnsiGo, h1, h2, h3, hw]⟩
          · obtain ⟨w, hw⟩ := stripAnsiGo_endsNl x' .normal
            exact ⟨('\x1b' :: '[' :: ds) ++ c :: w,
              by simp [stripAnsiGo, h1, h2, h3, hw]⟩

/-- Composing batches: when `x` ends with a newline, processing `x ++ y`
equals processing `x` then `y`. -/
theorem procText_append (now : Nat) (q y : List Char) (ps : PState) :
    procText now ((q ++ ['\n']) ++ y) ps
      = procText now y (procText now (q ++ ['\n']) ps) := by
  obtain ⟨w, hw⟩ := stripAnsiGo_endsNl q .normal
  have hw' : stripAnsi (q ++ ['\n']) = w ++ ['\n'] := hw
  have hsplit : stripAnsi ((q ++ ['\n']) ++ y)
      = stripAnsi (q ++ ['\n']) ++ stripAnsi y := by
    have h := stripAnsiGo_newline q .normal y
    have hx : (q ++ ['\n']) ++ y = q ++ '\n' :: y := by simp
    rw [stripAnsi, stripAnsi, stripAnsi, hx, h]
  unfold procText
  rw [hsplit, hw']
  have hassoc : (w ++ ['\n']) ++ stripAnsi y = w ++ '\n' :: stripAnsi y := by
    simp
  rw [hassoc, foldl_procLine_newline]

theorem splitAtLastNl_append : ∀ x y : List Char,
    splitAtLastNl (x ++ y) =
      match splitAtLastNl y with
      | some (p, r) => some (x ++ p, r)
      | none =>
        match splitAtLastNl x with
        | some (p, r) => some (p, r ++ y)
        | none => none
  | [], y => by
    cases hy : splitAtLastNl y with
    | some pr => simp [hy]
    | none => simp [hy, splitAtLastNl]
  | c :: x', y => by
    simp only [List.cons_append, splitAtLastNl, List.append_eq]
    rw [splitAtLastNl_append x' y]
    cases hy : splitAtLastNl y with
    | some pr =>
      obtain ⟨p, r⟩ := pr
      simp
    | none =>
      cases hx : splitAtLastNl x' with
      | some pr =>
        obtain ⟨p, r⟩ := pr
        simp
      | none =>
        by_cases hc : c = '\n'
        · simp [hc]
        · simp [hc]

theorem splitAtLastNl_none : ∀ cs : List Char,
    splitAtLastNl cs = none → '\n' ∉ cs
  | [] => by simp
  | c :: rest => by
    intro h
    simp only [splitAtLastNl] at h
    cases hr : splitAtLastNl rest with
    | some pr => rw [hr] at h; exact Option.noConfusion h
    | none =>
      rw [hr] at h
      by_cases hc : c = '\n'
      · rw [if_pos hc] at h
        exact Option.noConfusion h
      · rw [if_neg hc] at h
        simp only [List.mem_cons]
        rintro (he | he)
        · exact hc he.symm
        · exact splitAtLastNl_none rest hr he

theorem splitAtLastNl_of_not_mem : ∀ cs : List Char,
    '\n' ∉ cs → splitAtLastNl cs = none
  | [] => fun _ => rfl
  | c :: rest => by
    intro h
    simp only [List.mem_cons, not_or] at h
    simp only [splitAtLastNl]
    rw [splitAtLastNl_of_not_mem rest h.2]
    rw [if_neg (fun hc => h.1 hc.symm)]

theorem splitAtLastNl_some : ∀ (cs p r : List Char),
    splitAtLastNl cs = some (p, r) →
      cs = p ++ r ∧ '\n' ∉ r ∧ ∃ q, p = q ++ ['\n']
  | [], p, r => fun h => Option.noConfusion h
  | c :: rest, p, r => by
    intro h
    simp only [splitAtLastNl] at h
    cases hr : splitAtLastNl rest with
    | some pr =>
      obtain ⟨p0, r0⟩ := pr
      rw [hr] at h
      simp only [Option.some.injEq, Prod.mk.injEq] at h
      obtain ⟨hp, hrr⟩ := h
      obtain ⟨hcs, hnr, q, hq⟩ := splitAtLastNl_some rest p0 r0 hr
      subst hp
      subst hrr
      refine ⟨by simp [hcs], hnr, ?_⟩
      cases q with
      | nil => exact ⟨[c], by simp [hq]⟩
      | cons q0 qs => exact ⟨c :: q0 :: qs, by simp [hq]⟩
    | none =>
      rw [hr] at h
      by_cases hc : c = '\n'
      · rw [if_pos hc] at h
        simp only [Option.some.injEq, Prod.mk.injEq] at h
        obtain ⟨hp, hrr⟩ := h
        subst hp
        subst hrr
        exact ⟨by simp [hc], splitAtLastNl_none rest hr, [], by simp [hc]⟩
      · rw [if_neg hc] at h
        exact Option.noConfusion h

theorem splitAtLastNl_endsNl (q : List Char) :
    splitAtLastNl (q ++ ['\n']) = some (q ++ ['\n'], []) := by
  rw [splitAtLastNl_append q ['\n']]
  rfl

/-- Prepending an already-complete batch shifts `splitComp`/`splitRem`. -/
theorem splitComp_splitRem_shift (q z : List Char) :
    splitComp ((q ++ ['\n']) ++ z) = (q ++ ['\n']) ++ splitComp z
      ∧ splitRem ((q ++ ['\n']) ++ z) = splitRem z := by
  simp only [splitComp, splitRem]
  rw [splitAtLastNl_append (q ++ ['\n']) z]
  cases hz : splitAtLastNl z with
  | some pr =>
    obtain ⟨p, r⟩ := pr
    simp
  | none =>
    rw [splitAtLastNl_endsNl q]
    simp

theorem not_mem_splitRem (x : List Char) : '\n' ∉ splitRem x := by
  cases hsp : splitAtLastNl x with
  | some pr =>
    obtain ⟨p, r⟩ := pr
    have h := (splitAtLastNl_some x p r hsp).2.1
    simpa [splitRem, hsp] using h
  | none =>
    have h := splitAtLastNl_none x hsp
    simpa [splitRem, hsp] using h

theorem feedChunk_empty (node : TestNode) (now : Nat) (b : List Char)
    (ps : PState) (hb : '\n' ∉ b) :
    feedChunk node now ⟨b, ps⟩ [] = ⟨b, ps⟩ := by
  have h0 : splitAtLastNl b = none := splitAtLastNl_of_not_mem b hb
  simp [feedChunk, h0]

/-- The closed form of chunked feeding: after any chunk sequence, the
parser state is the canonical processing of the complete-lines part of
the concatenated text, and the buffer its remainder — provided each batch
is pure per-line processing (true for composite watched nodes). -/
theorem feed_closed_form (node : TestNode) (now : Nat)
    (hcomp : ∀ t ps, parseResults node t now ps = procText now t ps) :
    ∀ (chunks : List (List Char)) (buf : List Char) (ps : PState),
      '\n' ∉ buf →
      chunks.foldl (feedChunk node now) ⟨buf, ps⟩ =
        ⟨splitRem (buf ++ chunks.flatten),
         procText now (splitComp (buf ++ chunks.flatten)) ps⟩
  | [], buf, ps => by
    intro hb
    have h0 : splitAtLastNl buf = none := splitAtLastNl_of_not_mem buf hb
    simp [splitRem, splitComp, h0, procText, stripAnsi, stripAnsiGo,
      splitOnNl, procLine_nil]
  | c :: rest, buf, ps => by
    intro hb
    simp only [List.foldl_cons, List.flatten_cons]
    cases hsp : splitAtLastNl (buf ++ c) with
    | none =>
      have hb' : '\n' ∉ buf ++ c := splitAtLastNl_none _ hsp
      have hstep : feedChunk node now ⟨buf, ps⟩ c = ⟨buf ++ c, ps⟩ := by
        simp [feedChunk, hsp]
      rw [hstep, feed_closed_form node now hcomp rest (buf ++ c) ps hb']
      simp [List.append_assoc]
    | some pr =>
      obtain ⟨p, r⟩ := pr
      obtain ⟨hcs, hnr, q, hq⟩ := splitAtLastNl_some (buf ++ c) p r hsp
      have hstep : feedChunk node now ⟨buf, ps⟩ c
          = ⟨r, procText now p ps⟩ := by
        simp [feedChunk, hsp, hcomp]
      rw [hstep, feed_closed_form node now hcomp rest r (procText now p ps) hnr]
      subst hq
      have hx : buf ++ (c ++ rest.flatten) = (q ++ ['\n']) ++ (r ++ rest.flatten) := by
        rw [← List.append_assoc, hcs, List.append_assoc]
      have hshift := splitComp_splitRem_shift q (r ++ rest.flatten)
      rw [hx, hshift.1, hshift.2, procText_append]

/-- C3 (amended).  For a composite run node (at least one child) — whose
batches have no leaf summary step — and with every processing pass
observing the same clock value, feeding the parser a text as one chunk
and as an arbitrary chunk sequence with the same concatenation produce
identical final run states: the same Status Store, parser fields, and
retained buffer.  (For a leaf node the per-batch summary scan breaks the
invariance, see the counterexample; fallback durations also depend on the
per-pass wall clock, which the common `now` fixes.) -/
theorem claim3_chunk_invariance (node : TestNode) (now : Nat) (ps0 : PState)
    (chunks : List (List Char)) (text : List Char)
    (hcomp : TestNode.children node ≠ .nil)
    (hjoin : chunks.flatten = text) :
    feed node now ps0 chunks = feed node now ps0 [text] := by
  have hc : ∀ t ps, parseResults node t now ps = procText now t ps := by
    intro t ps
    cases hch : TestNode.children node with
    | nil => exact absurd hch hcomp
    | cons n0 rest => simp [parseResults, procText, hch]
  unfold feed
  rw [feed_closed_form node now hc chunks [] ps0 (by simp),
    feed_closed_form node now hc [text] [] ps0 (by simp),
    feedChunk_empty node now _ _ (not_mem_splitRem _),
    feedChunk_empty node now _ _ (not_mem_splitRem _)]
  simp [hjoin]

/-- Witness for C3 at a concrete composite node and a two-chunk split
that severs a line mid-way. -/
theorem claim3_chunk_invariance_witness :
    (TestNode.children (.mk "f" NodeType.file (some "f")
        (.cons (.mk "m" .method (some "f.m") .nil) .nil)) ≠ .nil
      ∧ (["a (b) .".data, ".. ok\nrest".data] : List (List Char)).flatten
        = "a (b) ... ok\nrest".data)
    ∧ feed (.mk "f" NodeType.file (some "f")
          (.cons (.mk "m" .method (some "f.m") .nil) .nil)) 0 initPS
        ["a (b) .".data, ".. ok\nrest".data]
      = feed (.mk "f" NodeType.file (some "f")
          (.cons (.mk "m" .method (some "f.m") .nil) .nil)) 0 initPS
        ["a (b) ... ok\nrest".data] := by
  refine ⟨⟨fun h => Forest.noConfusion h, by decide⟩, ?_⟩
  exact claim3_chunk_invariance _ 0 initPS _ _
    (fun h => Forest.noConfusion h) (by decide)

/-- C3 (counterexample).  For a leaf run node the claim fails: the same
text fed as one chunk vs two chunks (each a complete line) yields
different final Status Stores, because the summary scan
(`FAILED (failures=` checked before `OK`) runs once per batch over that
batch's text only. -/
theorem claim3_counterexample :
    (["FAILED (failures=1)\n".data, "OK\n".data] : List (List Char)).flatten
      = "FAILED (failures=1)\nOK\n".data
    ∧ c3Single.ps.store.getStatus "t" = some .failed
    ∧ c3Split.ps.store.getStatus "t" = some .passed
    ∧ c3Single.ps.store ≠ c3Split.ps.store := by
  refine ⟨by decide, by decide, by decide, by decide⟩

end DjangoTest
